import Mathlib

/-!
Shallow embedding of the byte-oriented static Huffman codec implemented in
`src/huffman.c` and `src/huffman2.c`.

Modelling conventions:
* a byte stream (file contents) is a `List Nat` whose entries are `< 256`;
* `uint64_t` arithmetic is `Nat` arithmetic reduced modulo `U64 = 2 ^ 64`
  wherever the C code can overflow (frequency counters, `total_chars`,
  the `left->freq + right->freq` merge);
* `fwrite`/`fread` of a `uint64_t` is modelled as the 8 little-endian bytes
  of the value (the C code uses host byte order; the host is little-endian);
* a `FILE *` sink/source is the list of bytes written/left to read;
* a C function that can fail (returns 0 after printing an error) is modelled
  with `Except CodecError`; the distinct error paths of the C code are given
  distinct `CodecError` constructors, including `nullDeref` for the decoder's
  `node = node->left` on a `NULL` pointer (a crash in C).

Both C files contain line-for-line identical heap / tree / code-generation /
bit-level routines; those are embedded once and shared.  The only place the
two files genuinely differ is the prologue of `compress_file` (empty-input
detection), so `compress_file` (huffman.c) and `compress_file2` (huffman2.c)
are separate definitions.
-/

set_option maxRecDepth 40000

namespace Huffman

/-- `2 ^ 64`, the modulus of `uint64_t` arithmetic. -/
def U64 : Nat := 18446744073709551616

/-- `HuffmanNode` (identical struct in both files): a leaf stores a byte value
`ch` and its frequency; an internal node stores its weight and its two
children.  The C code only ever creates zero-child (leaf) or two-child
(internal) nodes, so the embedding makes that structural. -/
inductive HTree where
  | leaf (ch : Nat) (freq : Nat)
  | node (freq : Nat) (left : HTree) (right : HTree)
deriving DecidableEq

instance : Inhabited HTree := ⟨HTree.leaf 0 0⟩

/-- `node->freq`, valid for both constructors. -/
def HTree.freq : HTree → Nat
  | .leaf _ f => f
  | .node f _ _ => f

/-- `heap_swap` acting on the heap's backing array: exchange entries `i`
and `j` (identical in both files). -/
def swapAt (l : List HTree) (i j : Nat) : List HTree :=
  (l.set i (l.getD j default)).set j (l.getD i default)

/-- `heapify_up` (identical in both files): sift entry `idx` up while its
frequency is strictly below its parent's.  The C `while` loop is rendered
with an explicit fuel so that the definition is structurally recursive and
kernel-computable; the loop index strictly decreases, so any fuel `≥ idx`
never runs out (first argument at every call site), and
`heapifyUp_fuel_enough` below proves the fuel is irrelevant beyond that
bound. -/
def heapifyUp : Nat → List HTree → Nat → List HTree
  | 0, l, _ => l
  | fuel + 1, l, idx =>
    if 0 < idx then
      if (l.getD ((idx - 1) / 2) default).freq ≤ (l.getD idx default).freq then l
      else heapifyUp fuel (swapAt l ((idx - 1) / 2) idx) ((idx - 1) / 2)
    else l

/-- `heapify_down` (identical in both files).  The C code picks `smallest`
among `idx` and its in-range children and loops while `smallest != idx`;
the nested conditionals spell out the same selection.  The loop index
strictly increases and stays below `l.length`, so any fuel `≥ l.length`
never runs out (`heapifyDown_fuel_enough` below). -/
def heapifyDown : Nat → List HTree → Nat → List HTree
  | 0, l, _ => l
  | fuel + 1, l, idx =>
    if idx * 2 + 1 < l.length ∧
        (l.getD (idx * 2 + 1) default).freq < (l.getD idx default).freq then
      if idx * 2 + 2 < l.length ∧
          (l.getD (idx * 2 + 2) default).freq < (l.getD (idx * 2 + 1) default).freq then
        heapifyDown fuel (swapAt l idx (idx * 2 + 2)) (idx * 2 + 2)
      else
        heapifyDown fuel (swapAt l idx (idx * 2 + 1)) (idx * 2 + 1)
    else
      if idx * 2 + 2 < l.length ∧
          (l.getD (idx * 2 + 2) default).freq < (l.getD idx default).freq then
        heapifyDown fuel (swapAt l idx (idx * 2 + 2)) (idx * 2 + 2)
      else l

/-- `heap_insert` (identical in both files up to the capacity-growth policy,
which does not affect the stored contents): append the node at index `size`
and sift it up from there. -/
def heap_insert (l : List HTree) (n : HTree) : List HTree :=
  heapifyUp l.length (l ++ [n]) l.length

/-- `heap_extract_min` (identical in both files): return `data[0]`, move the
last entry to the root, shrink, and sift down; `(none, [])` models the
`NULL` result on an empty heap. -/
def heap_extract_min (l : List HTree) : Option HTree × List HTree :=
  match l with
  | [] => (none, [])
  | x :: xs =>
    (some x,
      heapifyDown xs.length
        (((x :: xs).set 0 ((x :: xs).getD xs.length default)).dropLast) 0)

theorem length_swapAt (l : List HTree) (i j : Nat) : (swapAt l i j).length = l.length := by
  simp [swapAt]

theorem length_heapifyUp (fuel : Nat) (l : List HTree) (idx : Nat) :
    (heapifyUp fuel l idx).length = l.length := by
  induction fuel generalizing l idx with
  | zero => rfl
  | succ fuel ih =>
    unfold heapifyUp
    split
    · split
      · rfl
      · rw [ih, length_swapAt]
    · rfl

theorem length_heapifyDown (fuel : Nat) (l : List HTree) (idx : Nat) :
    (heapifyDown fuel l idx).length = l.length := by
  induction fuel generalizing l idx with
  | zero => rfl
  | succ fuel ih =>
    unfold heapifyDown
    split
    · split
      · rw [ih, length_swapAt]
      · rw [ih, length_swapAt]
    · split
      · rw [ih, length_swapAt]
      · rfl

/-- Any fuel `≥ idx` makes `heapifyUp` run the C loop to completion: the
result does not depend on the fuel beyond that bound. -/
theorem heapifyUp_fuel_enough (fuel fuel2 : Nat) (l : List HTree) (idx : Nat)
    (h : idx ≤ fuel) (h2 : idx ≤ fuel2) :
    heapifyUp fuel l idx = heapifyUp fuel2 l idx := by
  induction fuel generalizing fuel2 l idx with
  | zero =>
    have hz : idx = 0 := by omega
    subst hz
    cases fuel2 with
    | zero => rfl
    | succ fuel2 => simp [heapifyUp]
  | succ fuel ih =>
    match fuel2 with
    | 0 =>
      have hz : idx = 0 := by omega
      subst hz
      simp [heapifyUp]
    | fuel2 + 1 =>
      unfold heapifyUp
      split
      next hpos =>
        split
        · rfl
        · exact ih _ _ _ (by omega) (by omega)
      next => rfl

/-- Any fuel `≥ l.length - idx` makes `heapifyDown` run the C loop to
completion: the result does not depend on the fuel beyond that bound. -/
theorem heapifyDown_fuel_enough (fuel fuel2 : Nat) (l : List HTree) (idx : Nat)
    (h : l.length - idx ≤ fuel) (h2 : l.length - idx ≤ fuel2) :
    heapifyDown fuel l idx = heapifyDown fuel2 l idx := by
  induction fuel generalizing fuel2 l idx with
  | zero =>
    have h1 : l.length ≤ idx := by omega
    have h1b : l.length ≤ idx * 2 + 1 := by omega
    cases fuel2 with
    | zero => rfl
    | succ fuel2 =>
      unfold heapifyDown
      rw [if_neg (by omega), if_neg (by omega)]
  | succ fuel ih =>
    match fuel2 with
    | 0 =>
      have h1 : l.length ≤ idx := by omega
      unfold heapifyDown
      rw [if_neg (by omega), if_neg (by omega)]
    | fuel2 + 1 =>
      unfold heapifyDown
      split
      next hc1 =>
        split
        next hc2 => exact ih _ _ _ (by rw [length_swapAt]; omega) (by rw [length_swapAt]; omega)
        next hc2 => exact ih _ _ _ (by rw [length_swapAt]; omega) (by rw [length_swapAt]; omega)
      next hc1 =>
        split
        next hc2 => exact ih _ _ _ (by rw [length_swapAt]; omega) (by rw [length_swapAt]; omega)
        next hc2 => rfl

theorem length_heap_insert (l : List HTree) (n : HTree) :
    (heap_insert l n).length = l.length + 1 := by
  simp [heap_insert, length_heapifyUp]

theorem length_heap_extract_min (l : List HTree) (o : Option HTree) (l2 : List HTree)
    (h : heap_extract_min l = (o, l2)) : l2.length = l.length - 1 := by
  match l with
  | [] =>
    simp only [heap_extract_min, Prod.mk.injEq] at h
    simp [← h.2]
  | x :: xs =>
    simp only [heap_extract_min, Prod.mk.injEq] at h
    rw [← h.2, length_heapifyDown]
    simp

/-- `build_huffman_tree` inner merge loop (`while (heap->size > 1)`,
identical in both files): extract the two minimum nodes, merge them into an
internal node whose weight is the `uint64_t` sum, and re-insert.  The heap
shrinks by one per iteration, so any fuel `≥ heap.length` never runs out
(`buildLoop_fuel_enough` below); the `(none, _)` arms are unreachable since
the heap is nonempty whenever they are matched. -/
def buildLoop : Nat → List HTree → List HTree
  | 0, heap => heap
  | fuel + 1, heap =>
    if 1 < heap.length then
      match heap_extract_min heap with
      | (none, _) => heap
      | (some a, r1) =>
        match heap_extract_min r1 with
        | (none, _) => heap
        | (some b, r2) =>
          buildLoop fuel (heap_insert r2 (HTree.node ((a.freq + b.freq) % U64) a b))
    else heap

/-- Any fuel `≥ heap.length` makes `buildLoop` run the C loop to completion:
the result does not depend on the fuel beyond that bound. -/
theorem buildLoop_fuel_enough (fuel fuel2 : Nat) (heap : List HTree)
    (h : heap.length ≤ fuel + 1) (h2 : heap.length ≤ fuel2 + 1) :
    buildLoop fuel heap = buildLoop fuel2 heap := by
  induction fuel generalizing fuel2 heap with
  | zero =>
    cases fuel2 with
    | zero => rfl
    | succ fuel2 =>
      unfold buildLoop
      rw [if_neg (by omega)]
  | succ fuel ih =>
    match fuel2 with
    | 0 =>
      unfold buildLoop
      rw [if_neg (by omega)]
    | fuel2 + 1 =>
      unfold buildLoop
      split
      next hlen =>
        match h1 : heap_extract_min heap with
        | (none, r1) => rfl
        | (some a, r1) =>
          dsimp only
          match h2 : heap_extract_min r1 with
          | (none, r2) => rfl
          | (some b, r2) =>
            dsimp only
            have e1 := length_heap_extract_min _ _ _ h1
            have e2 := length_heap_extract_min _ _ _ h2
            exact ih _ _ (by rw [length_heap_insert]; omega)
              (by rw [length_heap_insert]; omega)
      next => rfl

/-- `build_huffman_tree` (identical in both files): count the nonzero
frequencies, return `NULL` (`none`) if there are none, insert one leaf per
nonzero byte value in ascending order 0..255, return the single node
directly if there is exactly one, otherwise run the merge loop and extract
the root. -/
def build_huffman_tree (frequencies : List Nat) : Option HTree :=
  if ((List.range 256).filter fun i => 0 < frequencies.getD i 0).length = 0 then none
  else
    let heap := (List.range 256).foldl
      (fun h i => if 0 < frequencies.getD i 0
        then heap_insert h (HTree.leaf i (frequencies.getD i 0)) else h) []
    if heap.length = 1 then (heap_extract_min heap).1
    else (heap_extract_min (buildLoop heap.length heap)).1

/-- The leaf-insertion pass of `build_huffman_tree`, split out for reasoning. -/
def insertLeaves (frequencies : List Nat) : List HTree :=
  (List.range 256).foldl
    (fun h i => if 0 < frequencies.getD i 0
      then heap_insert h (HTree.leaf i (frequencies.getD i 0)) else h) []

theorem build_huffman_tree_eq (frequencies : List Nat) :
    build_huffman_tree frequencies =
      if ((List.range 256).filter fun i => 0 < frequencies.getD i 0).length = 0 then none
      else if (insertLeaves frequencies).length = 1
        then (heap_extract_min (insertLeaves frequencies)).1
        else (heap_extract_min
          (buildLoop (insertLeaves frequencies).length (insertLeaves frequencies))).1 := rfl

/-- `build_huffman_tree` of `huffman2.c` is line-for-line the same algorithm
as the one in `huffman.c` (the only textual deltas are identifier names and
the minimum-capacity clamp in `heap_insert`, which never affects the stored
contents), so it is embedded by the same function. -/
def build_huffman_tree2 (frequencies : List Nat) : Option HTree :=
  build_huffman_tree frequencies

/-- The `Code codes[256]` array: entry `v` is `NULL` (`none`) or the bit
string for byte `v` ( `'0'` ↦ `false`, `'1'` ↦ `true`). -/
abbrev Codes := List (Option (List Bool))

/-- `generate_codes_recursive` (identical in both files): depth-first walk,
`'0'` when descending left, `'1'` when descending right, recording the
accumulated buffer at each leaf.  `buffer[depth] = c` followed by descending
to depth+1 is the append `buffer ++ [c]`. -/
def generate_codes_recursive (t : HTree) (buffer : List Bool) (codes : Codes) : Codes :=
  match t with
  | .leaf c _ => codes.set c (some buffer)
  | .node _ l r =>
    generate_codes_recursive r (buffer ++ [true])
      (generate_codes_recursive l (buffer ++ [false]) codes)

/-- `generate_codes` (identical in both files): clear the table, give a lone
leaf the one-bit code `"0"`, otherwise run the recursive traversal from an
empty buffer.  Both call sites in the C code pass a non-`NULL` root, so the
root is not an `Option` here. -/
def generate_codes (root : HTree) : Codes :=
  match root with
  | .leaf c _ => (List.replicate 256 (none : Option (List Bool))).set c (some [false])
  | _ => generate_codes_recursive root [] (List.replicate 256 none)

/-- `BitWriter` over an in-memory sink: `out` is the bytes already
`fwrite`-ten, `buffer`/`bitCount` the partial byte (identical in both
files). -/
structure BitWriter where
  out : List Nat
  buffer : Nat
  bitCount : Nat
deriving DecidableEq

/-- `bitwriter_create` on an empty sink. -/
def bitwriter_create : BitWriter := ⟨[], 0, 0⟩

/-- `bitwriter_write_bit` (identical in both files): OR the bit into position
`7 - bit_count` (MSB-first) and emit the byte once 8 bits are buffered. -/
def bitwriter_write_bit (bw : BitWriter) (bit : Bool) : BitWriter :=
  if bw.bitCount + 1 = 8 then
    ⟨bw.out ++ [bw.buffer ||| ((if bit then 1 else 0) <<< (7 - bw.bitCount))], 0, 0⟩
  else
    ⟨bw.out, bw.buffer ||| ((if bit then 1 else 0) <<< (7 - bw.bitCount)), bw.bitCount + 1⟩

/-- `bitwriter_write_bits_from_string` (identical in both files): write each
bit of the code in order. -/
def bitwriter_write_bits (bw : BitWriter) (bits : List Bool) : BitWriter :=
  bits.foldl bitwriter_write_bit bw

/-- `bitwriter_flush` (identical in both files): emit the final partial byte
if any bits are buffered, and return everything written. -/
def bitwriter_flush (bw : BitWriter) : List Nat :=
  if 0 < bw.bitCount then bw.out ++ [bw.buffer] else bw.out

/-- `BitReader` over an in-memory source: `input` is the bytes not yet
`fread`; `buffer`/`bitCount` the current byte and how many bits of it are
left (identical in both files). -/
structure BitReader where
  input : List Nat
  buffer : Nat
  bitCount : Nat
deriving DecidableEq

/-- `bitreader_read_bit` (identical in both files): when the buffer is empty,
fetch one byte (EOF ↦ `none`) and set `bit_count = 8`; then return
`(buffer >> (7 - pos)) & 1` with `pos = bit_count - 1` and decrement.
Note the extracted bit: on a fresh byte `pos = 7`, so the shift `7 - pos`
is `0` and the reader yields the LEAST significant bit first, even though
`bitwriter_write_bit` packed the first bit into the MOST significant
position.  The embedding reproduces this faithfully. -/
def bitreader_read_bit (br : BitReader) : Option (Bool × BitReader) :=
  if br.bitCount = 0 then
    match br.input with
    | [] => none
    | byte :: rest =>
      some (((byte >>> (7 - (8 - 1))) &&& 1) == 1, ⟨rest, byte, 8 - 1⟩)
  else
    some (((br.buffer >>> (7 - (br.bitCount - 1))) &&& 1) == 1,
      ⟨br.input, br.buffer, br.bitCount - 1⟩)

/-- Error taxonomy: one constructor per distinct failure path of the C code
(`EmptyInputError`, the defensive tree-rebuild failure, the unreachable
missing-code path of the encoder, `TruncatedHeaderError` for either header
`fread` coming up short, `UnexpectedEndOfStreamError` for the decoder's
mid-stream EOF, and `nullDeref` for the decoder's `NULL`-pointer
dereference, which in C is a crash). -/
inductive CodecError where
  | emptyInput
  | treeFail
  | noCode
  | truncatedHeader
  | unexpectedEndOfStream
  | nullDeref
deriving DecidableEq

/-- The bytes of an `.ok` result (and `[]` for an error), for stating
closed facts about a produced blob. -/
def okBytes : Except CodecError (List Nat) → List Nat
  | .ok l => l
  | .error _ => []

/-- The increment `frequencies[(unsigned char)c]++` over the whole input:
one 256-entry `uint64_t` table, all zero initially (identical in both
files). -/
def count_frequencies (input : List Nat) : List Nat :=
  input.foldl (fun t c => t.set c ((t.getD c 0 + 1) % U64)) (List.replicate 256 0)

/-- `total_chars++` over the whole input (a `uint64_t` counter). -/
def total_chars (input : List Nat) : Nat :=
  input.foldl (fun n _ => (n + 1) % U64) 0

/-- The 8 bytes `fwrite(&x, sizeof(uint64_t), 1, out)` puts on disk for a
`uint64_t` value: little-endian host order. -/
def u64_to_bytes (n : Nat) : List Nat :=
  [n % 256, n / 256 % 256, n / 65536 % 256, n / 16777216 % 256,
   n / 4294967296 % 256, n / 1099511627776 % 256,
   n / 281474976710656 % 256, n / 72057594037927936 % 256]

/-- The `uint64_t` value `fread` reconstructs from 8 little-endian bytes. -/
def bytes_to_u64 (bs : List Nat) : Nat :=
  bs.getD 0 0 + 256 * bs.getD 1 0 + 65536 * bs.getD 2 0 + 16777216 * bs.getD 3 0 +
    4294967296 * bs.getD 4 0 + 1099511627776 * bs.getD 5 0 +
    281474976710656 * bs.getD 6 0 + 72057594037927936 * bs.getD 7 0

/-- The header `compress_file` writes: `total_chars` then the 256-entry
frequency table, 8 bytes each. -/
def write_header (total : Nat) (frequencies : List Nat) : List Nat :=
  u64_to_bytes total ++ frequencies.flatMap u64_to_bytes

/-- The `total_chars` field `decompress_file` reads from a blob. -/
def read_header_total (blob : List Nat) : Nat := bytes_to_u64 (blob.take 8)

/-- The 256-entry frequency table `decompress_file` reads from a blob:
entry `v` is decoded from bytes `8 + 8v .. 8 + 8v + 7`. -/
def read_header_freqs (blob : List Nat) : List Nat :=
  (List.range 256).map fun v => bytes_to_u64 ((blob.drop (8 + 8 * v)).take 8)

/-- The second (encoding) pass of `compress_file` (identical in both files):
for each input byte look up its code — `NULL` aborts with an error (a path
both authors mark as unreachable) — and append its bits to the writer. -/
def encode_pass (codes : Codes) (input : List Nat) (bw : BitWriter) : Option BitWriter :=
  match input with
  | [] => some bw
  | c :: rest =>
    match codes.getD c none with
    | none => none
    | some bits => encode_pass codes rest (bitwriter_write_bits bw bits)

/-- `compress_file` of `huffman.c`: count frequencies and `total_chars`,
build the tree (a `NULL` tree means the input was empty), generate codes,
write the header, run the encoding pass, flush.  The result is the full
byte contents of the output file. -/
def compress_file (input : List Nat) : Except CodecError (List Nat) :=
  match build_huffman_tree (count_frequencies input) with
  | none => .error .emptyInput
  | some root =>
    match encode_pass (generate_codes root) input bitwriter_create with
    | none => .error .noCode
    | some bw =>
      .ok (write_header (total_chars input) (count_frequencies input) ++ bitwriter_flush bw)

/-- `compress_file` of `huffman2.c`: identical to `huffman.c`'s except for
the prologue — it reports the empty input from `total == 0` before building
the tree, and keeps a separate (unreachable) failure for a `NULL` tree. -/
def compress_file2 (input : List Nat) : Except CodecError (List Nat) :=
  if total_chars input = 0 then .error .emptyInput
  else
    match build_huffman_tree (count_frequencies input) with
    | none => .error .treeFail
    | some root =>
      match encode_pass (generate_codes root) input bitwriter_create with
      | none => .error .noCode
      | some bw =>
        .ok (write_header (total_chars input) (count_frequencies input) ++ bitwriter_flush bw)

/-- `uniqueCount` as computed by `decompress_file`'s scan over the table. -/
def uniqueCountOf (frequencies : List Nat) : Nat :=
  ((List.range 256).filter fun i => 0 < frequencies.getD i 0).length

/-- `onlyChar` as computed by `decompress_file`'s scan: the last byte value
with nonzero frequency (0 if none). -/
def onlyCharOf (frequencies : List Nat) : Nat :=
  (List.range 256).foldl (fun acc i => if 0 < frequencies.getD i 0 then i else acc) 0

theorem bitreader_read_bit_size (br br2 : BitReader) (b : Bool)
    (h : bitreader_read_bit br = some (b, br2)) :
    8 * br2.input.length + br2.bitCount < 8 * br.input.length + br.bitCount := by
  unfold bitreader_read_bit at h
  split at h
  next h0 =>
    match hi : br.input with
    | [] => rw [hi] at h; exact absurd h (by simp)
    | byte :: rest =>
      rw [hi] at h
      simp only [Option.some.injEq, Prod.mk.injEq] at h
      rw [← h.2]
      simp only [List.length_cons, h0]
      omega
  next h0 =>
    simp only [Option.some.injEq, Prod.mk.injEq] at h
    rw [← h.2]
    simp only []
    omega

/-- The regular decoding loop of `decompress_file` (identical in both
files): while fewer than `total` symbols are written, read one bit (EOF is
the `UnexpectedEndOfStreamError` path: the C loop breaks and the final
`written == total_chars` check fails), step to the left child on 0 / right
child on 1, and on reaching a leaf emit its byte and restart from the root.
`cur = none` models the C pointer being `NULL`: the next loop iteration
dereferences it (`node = node->left`), which is a crash, modelled as
`nullDeref`; likewise stepping from a leaf makes the pointer `NULL` and the
`!node->left` test on it crashes.  Every iteration of the C loop consumes
one bit, so any fuel above the number of available bits never runs out
(`decode_loop_fuel_enough` below); the fuel-exhaustion arm is unreachable
at the call site. -/
def decode_loop (root : Option HTree) : Nat → Option HTree → BitReader → Nat → Nat →
    List Nat → Except CodecError (List Nat)
  | 0, _, _, _, _, _ => .error .unexpectedEndOfStream
  | fuel + 1, cur, br, total, written, acc =>
    if written < total then
      match bitreader_read_bit br with
      | none => .error .unexpectedEndOfStream
      | some (bit, br2) =>
        match cur with
        | none => .error .nullDeref
        | some (.leaf _ _) => .error .nullDeref
        | some (.node _ l r) =>
          match (if bit then r else l) with
          | .leaf c _ => decode_loop root fuel root br2 total (written + 1) (acc ++ [c])
          | .node f2 l2 r2 =>
            decode_loop root fuel (some (.node f2 l2 r2)) br2 total written acc
    else .ok acc

/-- Any fuel above the number of bits the reader can still deliver makes
`decode_loop` run the C loop to completion: the result does not depend on
the fuel beyond that bound. -/
theorem decode_loop_fuel_enough (root : Option HTree) (fuel fuel2 : Nat)
    (cur : Option HTree) (br : BitReader) (total written : Nat) (acc : List Nat)
    (h : 8 * br.input.length + br.bitCount < fuel)
    (h2 : 8 * br.input.length + br.bitCount < fuel2) :
    decode_loop root fuel cur br total written acc =
      decode_loop root fuel2 cur br total written acc := by
  induction fuel generalizing fuel2 cur br written acc with
  | zero => omega
  | succ fuel ih =>
    match fuel2 with
    | 0 => omega
    | fuel2 + 1 =>
      unfold decode_loop
      split
      next hw =>
        match hr : bitreader_read_bit br with
        | none => rfl
        | some (bit, br2) =>
          have hs := bitreader_read_bit_size _ _ _ hr
          match cur with
          | none => rfl
          | some (.leaf _ _) => rfl
          | some (.node _ l r) =>
            dsimp only
            match h3 : (if bit then r else l) with
            | .leaf c _ =>
              exact ih fuel2 root br2 (written + 1) (acc ++ [c]) (by omega) (by omega)
            | .node f2 l2 r2 =>
              exact ih fuel2 (some (.node f2 l2 r2)) br2 written acc (by omega) (by omega)
      next => rfl

/-- `decompress_file` (line-for-line identical in `huffman.c` and
`huffman2.c` up to message strings): fail if either header `fread` comes up
short (fewer than 8, resp. 2056, bytes), rebuild the tree from the table,
fail if it is `NULL` while `total_chars > 0`, emit `onlyChar` exactly
`total_chars` times when exactly one byte value has nonzero frequency
(never touching the bitstream), and otherwise run the bit-decoding loop
over the bytes after the header. -/
def decompress_file (blob : List Nat) : Except CodecError (List Nat) :=
  if blob.length < 8 then .error .truncatedHeader
  else if blob.length < 2056 then .error .truncatedHeader
  else if build_huffman_tree (read_header_freqs blob) = none ∧ 0 < read_header_total blob then
    .error .treeFail
  else if uniqueCountOf (read_header_freqs blob) = 1 then
    .ok (List.replicate (read_header_total blob) (onlyCharOf (read_header_freqs blob)))
  else
    decode_loop (build_huffman_tree (read_header_freqs blob)) (8 * (blob.drop 2056).length + 1)
      (build_huffman_tree (read_header_freqs blob)) ⟨blob.drop 2056, 0, 0⟩
      (read_header_total blob) 0 []

/-- `decompress_file` of `huffman2.c` is line-for-line identical to
`huffman.c`'s (only the error message strings differ), so it is embedded by
the same function. -/
def decompress_file2 (blob : List Nat) : Except CodecError (List Nat) :=
  decompress_file blob

/-! ### Generic list access lemmas used throughout -/

theorem getD_set_self {α : Type} (l : List α) (i : Nat) (a d : α) (h : i < l.length) :
    (l.set i a).getD i d = a := by
  induction l generalizing i with
  | nil => simp at h
  | cons x xs ih =>
    match i with
    | 0 => rfl
    | i + 1 => exact ih i (by simpa using h)

theorem getD_set_ne {α : Type} (l : List α) (i j : Nat) (a d : α) (h : i ≠ j) :
    (l.set i a).getD j d = l.getD j d := by
  induction l generalizing i j with
  | nil => simp
  | cons x xs ih =>
    match i, j with
    | 0, 0 => omega
    | 0, j + 1 => rfl
    | i + 1, 0 => rfl
    | i + 1, j + 1 => exact ih i j (by omega)

theorem getD_replicate {α : Type} (n i : Nat) (a d : α) :
    (List.replicate n a).getD i d = if i < n then a else d := by
  induction n generalizing i with
  | zero => simp
  | succ n ih =>
    match i with
    | 0 => simp [List.replicate_succ]
    | i + 1 =>
      rw [List.replicate_succ, List.getD_cons_succ, ih]
      by_cases h : i < n <;> simp [h] <;> omega

theorem getD_of_length_le (l : List Nat) (i : Nat) (h : l.length ≤ i) : l.getD i 0 = 0 := by
  rw [List.getD_eq_getElem?_getD, List.getElem?_eq_none h]
  rfl

theorem getD_eq_getElem {α : Type} [Inhabited α] (l : List α) (i : Nat) (d : α)
    (h : i < l.length) : l.getD i d = l[i] := by
  rw [List.getD_eq_getElem?_getD, List.getElem?_eq_getElem h]
  rfl

/-! ### Serialization lemmas: the header round-trips through its bytes -/

theorem length_u64_to_bytes (n : Nat) : (u64_to_bytes n).length = 8 := rfl

theorem bytes_to_u64_u64_to_bytes (n : Nat) (h : n < U64) :
    bytes_to_u64 (u64_to_bytes n) = n := by
  simp only [u64_to_bytes, bytes_to_u64, U64] at *
  simp only [List.getD_cons_zero, List.getD_cons_succ]
  omega

theorem drop_flatMap_u64 (fr : List Nat) (rest : List Nat) (v : Nat) (h : v ≤ fr.length) :
    (fr.flatMap u64_to_bytes ++ rest).drop (8 * v) = (fr.drop v).flatMap u64_to_bytes ++ rest := by
  induction v generalizing fr with
  | zero => simp
  | succ v ih =>
    match fr with
    | [] => simp at h
    | f :: fr =>
      have h1 : 8 * (v + 1) = 8 + 8 * v := by ring
      rw [h1, ← List.drop_drop]
      have h8 : ((f :: fr).flatMap u64_to_bytes ++ rest).drop 8 =
          fr.flatMap u64_to_bytes ++ rest := by
        rw [List.flatMap_cons, List.append_assoc,
          List.drop_append_of_le_length (by simp [length_u64_to_bytes])]
        simp [u64_to_bytes]
      rw [h8, ih fr (by simpa using h)]
      simp

theorem read_header_total_write (total : Nat) (fr : List Nat) (rest : List Nat)
    (h : total < U64) :
    read_header_total (write_header total fr ++ rest) = total := by
  rw [read_header_total, write_header, List.append_assoc,
    List.take_append_of_le_length (by simp [length_u64_to_bytes]),
    List.take_of_length_le (by simp [length_u64_to_bytes]),
    bytes_to_u64_u64_to_bytes _ h]

theorem map_getD_range (fr : List Nat) (n : Nat) (h : fr.length = n) :
    ((List.range n).map fun v => fr.getD v 0) = fr := by
  apply List.ext_getElem (by simp [h])
  intro i h1 h2
  simp only [List.getElem_map, List.getElem_range]
  exact getD_eq_getElem _ _ _ h2

theorem read_header_freqs_write (total : Nat) (fr : List Nat) (rest : List Nat)
    (hlen : fr.length = 256) (hlt : ∀ i, fr.getD i 0 < U64) :
    read_header_freqs (write_header total fr ++ rest) = fr := by
  rw [read_header_freqs]
  conv_rhs => rw [← map_getD_range fr 256 hlen]
  apply List.map_congr_left
  intro v hv
  rw [List.mem_range] at hv
  rw [write_header, List.append_assoc]
  have hd8 : (u64_to_bytes total ++ (fr.flatMap u64_to_bytes ++ rest)).drop (8 + 8 * v) =
      (fr.flatMap u64_to_bytes ++ rest).drop (8 * v) := by
    rw [← List.drop_drop, List.drop_append_of_le_length (by simp [length_u64_to_bytes])]
    simp [u64_to_bytes]
  rw [hd8, drop_flatMap_u64 fr rest v (by omega)]
  have hv2 : v < fr.length := by omega
  rw [List.drop_eq_getElem_cons hv2, List.flatMap_cons, List.append_assoc,
    List.take_append_of_le_length (by simp [length_u64_to_bytes]),
    List.take_of_length_le (by simp [length_u64_to_bytes]),
    ← getD_eq_getElem fr v 0 hv2, bytes_to_u64_u64_to_bytes _ (hlt v)]

theorem length_flatMap_u64 (fr : List Nat) : (fr.flatMap u64_to_bytes).length = 8 * fr.length := by
  induction fr with
  | nil => rfl
  | cons f fr ih =>
    rw [List.flatMap_cons, List.length_append, length_u64_to_bytes, ih, List.length_cons]
    ring

theorem length_write_header (total : Nat) (fr : List Nat) (h : fr.length = 256) :
    (write_header total fr).length = 2056 := by
  rw [write_header, List.length_append, length_u64_to_bytes, length_flatMap_u64, h]

/-! ### Frequency counting -/

theorem length_count_frequencies (input : List Nat) :
    (count_frequencies input).length = 256 := by
  rw [count_frequencies]
  generalize hinit : List.replicate 256 (0 : Nat) = init
  have h0 : init.length = 256 := by rw [← hinit, List.length_replicate]
  clear hinit
  induction input generalizing init with
  | nil => exact h0
  | cons c input ih => exact ih _ (by simp [h0])

theorem getD_count_frequencies (input : List Nat) (hin : ∀ x ∈ input, x < 256) (v : Nat)
    (hv : v < 256) :
    (count_frequencies input).getD v 0 = input.count v % U64 := by
  rw [count_frequencies]
  have main : ∀ (init : List Nat), init.length = 256 → (∀ i, init.getD i 0 < U64) →
      (input.foldl (fun t c => t.set c ((t.getD c 0 + 1) % U64)) init).getD v 0 =
        (init.getD v 0 + input.count v) % U64 := by
    induction input with
    | nil =>
      intro init hlen hlt
      rw [List.foldl_nil, List.count_nil, Nat.add_zero]
      exact (Nat.mod_eq_of_lt (hlt v)).symm
    | cons c input ih =>
      intro init hlen hlt
      have hc : c < 256 := hin c (by simp)
      have hin2 : ∀ x ∈ input, x < 256 := fun x hx => hin x (by simp [hx])
      rw [List.foldl_cons, ih hin2 _ (by simp [hlen]) ?hlt]
      case hlt =>
        intro i
        rcases eq_or_ne i c with rfl | hne
        · rw [getD_set_self _ _ _ _ (by omega)]
          exact Nat.mod_lt _ (by rw [U64]; omega)
        · rw [getD_set_ne _ _ _ _ _ (by omega)]
          exact hlt i
      rcases eq_or_ne v c with rfl | hne
      · rw [getD_set_self _ _ _ _ (by omega), List.count_cons_self]
        rw [Nat.mod_add_mod]
        congr 1
        omega
      · rw [getD_set_ne _ _ _ _ _ (by omega), List.count_cons_of_ne (by omega)]
  rw [main _ (by rw [List.length_replicate]) ?hinit]
  case hinit =>
    intro i
    rw [getD_replicate]
    split <;> (rw [U64]; omega)
  rw [getD_replicate, if_pos hv, Nat.zero_add]

theorem getD_count_frequencies_lt (input : List Nat) (v : Nat) :
    (count_frequencies input).getD v 0 < U64 := by
  rw [count_frequencies]
  have main : ∀ (init : List Nat), (∀ i, init.getD i 0 < U64) →
      ∀ i, (input.foldl (fun t c => t.set c ((t.getD c 0 + 1) % U64)) init).getD i 0 < U64 := by
    induction input with
    | nil => intro init hlt i; exact hlt i
    | cons c input ih =>
      intro init hlt i
      refine ih _ (fun j => ?_) i
      rcases eq_or_ne j c with rfl | hne
      · rcases Nat.lt_or_ge j init.length with hj | hj
        · rw [getD_set_self _ _ _ _ (by omega)]
          exact Nat.mod_lt _ (by rw [U64]; omega)
        · show (init.set j ((init.getD j 0 + 1) % U64)).getD j 0 < U64
          rw [List.set_eq_of_length_le (by omega)]
          exact hlt j
      · rw [getD_set_ne _ _ _ _ _ (by omega)]
        exact hlt j
  refine main _ (fun i => ?_) v
  rw [getD_replicate]
  split <;> (rw [U64]; omega)

theorem total_chars_eq (input : List Nat) : total_chars input = input.length % U64 := by
  rw [total_chars]
  have main : ∀ (n : Nat), n < U64 →
      (input.foldl (fun n _ => (n + 1) % U64) n) = (n + input.length) % U64 := by
    induction input with
    | nil => intro n hn; rw [List.foldl_nil, List.length_nil, Nat.add_zero,
        Nat.mod_eq_of_lt hn]
    | cons c input ih =>
      intro n hn
      rw [List.foldl_cons, ih _ (Nat.mod_lt _ (by rw [U64]; omega)), Nat.mod_add_mod,
        List.length_cons]
      congr 1
      omega
  rw [main 0 (by rw [U64]; omega), Nat.zero_add]

theorem total_chars_lt (input : List Nat) : total_chars input < U64 := by
  rw [total_chars_eq]
  exact Nat.mod_lt _ (by rw [U64]; omega)

theorem sum_map_count (input : List Nat) (n : Nat) (hin : ∀ x ∈ input, x < n) :
    (((List.range n).map fun v => input.count v).sum) = input.length := by
  induction input with
  | nil => simp
  | cons c input ih =>
    have hc : c < n := hin c (by simp)
    have hin2 : ∀ x ∈ input, x < n := fun x hx => hin x (by simp [hx])
    have hsplit : (((List.range n).map fun v => (c :: input).count v).sum) =
        (((List.range n).map fun v => input.count v).sum) +
        (((List.range n).map fun v => if c = v then 1 else 0).sum) := by
      rw [← List.sum_map_add]
      apply congrArg
      apply List.map_congr_left
      intro v hv
      rw [List.count_cons]
      simp
    rw [hsplit, ih hin2]
    have hone : ∀ m, c < m →
        (((List.range m).map fun v => if c = v then (1 : Nat) else 0).sum) = 1 := by
      intro m
      induction m with
      | zero => omega
      | succ m ihm =>
        intro hcm
        rw [List.range_succ, List.map_append, List.sum_append]
        rcases Nat.lt_or_ge c m with h | h
        · rw [ihm h]
          simp [Nat.ne_of_lt h]
        · have hcm2 : c = m := by omega
          subst hcm2
          have hno : ∀ v ∈ List.range c, ¬ (c = v) := by
            intro v hv
            rw [List.mem_range] at hv
            omega
          rw [List.map_congr_left (fun v hv => if_neg (hno v hv))]
          simp
    rw [hone n hc]
    simp

/-! ### Heap contents: tree building preserves the multiset of leaf bytes -/

/-- The byte values stored at the leaves of a tree, left to right. -/
def HTree.leafChars : HTree → List Nat
  | .leaf c _ => [c]
  | .node _ l r => l.leafChars ++ r.leafChars

theorem count_set_htree (l : List HTree) (i : Nat) (a x : HTree) (h : i < l.length) :
    (l.set i a).count x + (if l.getD i default = x then 1 else 0) =
      l.count x + (if a = x then 1 else 0) := by
  induction l generalizing i with
  | nil => simp at h
  | cons y ys ih =>
    match i with
    | 0 =>
      simp only [List.set_cons_zero, List.getD_cons_zero, List.count_cons, beq_iff_eq]
      have e1 : (if x = a then (1 : Nat) else 0) = (if a = x then 1 else 0) := by
        by_cases hxa : x = a
        · rw [if_pos hxa, if_pos hxa.symm]
        · rw [if_neg hxa, if_neg (fun hh => hxa hh.symm)]
      have e2 : (if x = y then (1 : Nat) else 0) = (if y = x then 1 else 0) := by
        by_cases hxy : x = y
        · rw [if_pos hxy, if_pos hxy.symm]
        · rw [if_neg hxy, if_neg (fun hh => hxy hh.symm)]
      omega
    | i + 1 =>
      simp only [List.set_cons_succ, List.getD_cons_succ, List.count_cons, beq_iff_eq]
      have hih := ih i (by simpa using h)
      omega

theorem set_getD_default_self (l : List HTree) (i : Nat) (h : i < l.length) :
    l.set i (l.getD i default) = l := by
  apply List.ext_getElem (by simp)
  intro k h1 h2
  rcases eq_or_ne i k with rfl | hne
  · simp only [List.getElem_set_self]
    exact getD_eq_getElem _ _ _ h
  · simp [List.getElem_set_ne hne]

theorem swapAt_perm (l : List HTree) (i j : Nat) (hi : i < l.length) (hj : j < l.length) :
    List.Perm (swapAt l i j) l := by
  rcases eq_or_ne i j with rfl | hne
  · rw [swapAt, List.set_set, set_getD_default_self _ _ hi]
  · rw [List.perm_iff_count]
    intro x
    have c1 := count_set_htree l i (l.getD j default) x hi
    have c2 := count_set_htree (l.set i (l.getD j default)) j (l.getD i default) x
      (by simp [hj])
    rw [getD_set_ne _ _ _ _ _ hne] at c2
    rw [swapAt] at *
    omega

theorem heapifyUp_perm (fuel : Nat) (l : List HTree) (idx : Nat) (h : idx < l.length) :
    List.Perm (heapifyUp fuel l idx) l := by
  induction fuel generalizing l idx with
  | zero => exact List.Perm.refl l
  | succ fuel ih =>
    unfold heapifyUp
    split
    next hpos =>
      split
      next => exact List.Perm.refl l
      next =>
        refine List.Perm.trans (ih _ _ ?_) (swapAt_perm l _ _ ?_ h)
        · rw [length_swapAt]; omega
        · omega
    next => exact List.Perm.refl l

theorem heapifyDown_perm (fuel : Nat) (l : List HTree) (idx : Nat) :
    List.Perm (heapifyDown fuel l idx) l := by
  induction fuel generalizing l idx with
  | zero => exact List.Perm.refl l
  | succ fuel ih =>
    unfold heapifyDown
    split
    next h1 =>
      split
      next h2 =>
        exact List.Perm.trans (ih _ _) (swapAt_perm l _ _ (by omega) (by omega))
      next h2 =>
        exact List.Perm.trans (ih _ _) (swapAt_perm l _ _ (by omega) (by omega))
    next h1 =>
      split
      next h2 =>
        exact List.Perm.trans (ih _ _) (swapAt_perm l _ _ (by omega) (by omega))
      next h2 => exact List.Perm.refl l

theorem heap_insert_perm (l : List HTree) (n : HTree) :
    List.Perm (heap_insert l n) (n :: l) :=
  List.Perm.trans (heapifyUp_perm _ _ _ (by simp)) (List.perm_append_singleton n l)

theorem heap_extract_min_snd_perm (x : HTree) (xs : List HTree) :
    List.Perm (heap_extract_min (x :: xs)).2 xs := by
  simp only [heap_extract_min]
  refine List.Perm.trans (heapifyDown_perm _ _ 0) ?_
  match xs with
  | [] => simp
  | y :: ys =>
    rw [List.set_cons_zero]
    have hb : (x :: y :: ys).getD (y :: ys).length default = (y :: ys).getLast (by simp) := by
      rw [List.length_cons, List.getD_cons_succ, getD_eq_getElem _ _ _ (by simp),
        List.getLast_eq_getElem]
      simp
    rw [hb, List.dropLast_cons₂]
    have hsplit := List.dropLast_append_getLast (l := y :: ys) (by simp)
    conv_rhs => rw [← hsplit]
    exact (List.perm_append_singleton _ _).symm

/-- The multiset of leaf byte values over all trees in a heap. -/
def heapChars (l : List HTree) : Multiset Nat := ↑(l.flatMap HTree.leafChars)

theorem heapChars_perm (l1 l2 : List HTree) (h : List.Perm l1 l2) :
    heapChars l1 = heapChars l2 :=
  Multiset.coe_eq_coe.mpr (List.Perm.flatMap_right HTree.leafChars h)

theorem heapChars_cons (x : HTree) (xs : List HTree) :
    heapChars (x :: xs) = ↑x.leafChars + heapChars xs := by
  simp only [heapChars, List.flatMap_cons]
  rfl

theorem heapChars_heap_insert (l : List HTree) (n : HTree) :
    heapChars (heap_insert l n) = ↑n.leafChars + heapChars l := by
  rw [heapChars_perm _ _ (heap_insert_perm l n), heapChars_cons]

theorem heap_extract_min_some (l : List HTree) (a : HTree) (r : List HTree)
    (h : heap_extract_min l = (some a, r)) :
    heapChars l = ↑a.leafChars + heapChars r := by
  match l with
  | [] => simp [heap_extract_min] at h
  | x :: xs =>
    simp only [heap_extract_min, Prod.mk.injEq, Option.some.injEq] at h
    obtain ⟨ha, hr⟩ := h
    subst ha
    have hp := heapChars_perm _ _ (heap_extract_min_snd_perm x xs)
    simp only [heap_extract_min] at hp
    rw [heapChars_cons, ← hr, hp]

theorem heapChars_buildLoop (fuel : Nat) (heap : List HTree) :
    heapChars (buildLoop fuel heap) = heapChars heap := by
  induction fuel generalizing heap with
  | zero => rfl
  | succ fuel ih =>
    unfold buildLoop
    split
    next hlen =>
      match h1 : heap_extract_min heap with
      | (none, r1) => rfl
      | (some a, r1) =>
        dsimp only
        match h2 : heap_extract_min r1 with
        | (none, r2) => rfl
        | (some b, r2) =>
          dsimp only
          rw [ih, heapChars_heap_insert, heap_extract_min_some _ _ _ h1,
            heap_extract_min_some _ _ _ h2]
          show ↑(HTree.leafChars a ++ HTree.leafChars b) + heapChars r2 = _
          rw [← Multiset.coe_add]
          abel
    next => rfl

theorem length_buildLoop (fuel : Nat) (heap : List HTree) (h : heap.length ≤ fuel + 1)
    (h0 : 1 ≤ heap.length) : (buildLoop fuel heap).length = 1 := by
  induction fuel generalizing heap with
  | zero =>
    show heap.length = 1
    omega
  | succ fuel ih =>
    unfold buildLoop
    split
    next hlen =>
      match h1 : heap_extract_min heap with
      | (none, r1) =>
        exfalso
        match heap with
        | [] => simp at hlen
        | x :: xs => simp [heap_extract_min] at h1
      | (some a, r1) =>
        dsimp only
        have e1 := length_heap_extract_min _ _ _ h1
        match h2 : heap_extract_min r1 with
        | (none, r2) =>
          exfalso
          match r1, e1, h2 with
          | [], e1, h2 => simp at e1; omega
          | y :: ys, e1, h2 => simp [heap_extract_min] at h2
        | (some b, r2) =>
          dsimp only
          have e2 := length_heap_extract_min _ _ _ h2
          refine ih _ ?_ ?_ <;> rw [length_heap_insert] <;> omega
    next hlen =>
      show heap.length = 1
      omega

theorem foldl_filter_if {α β : Type} (p : α → Prop) [DecidablePred p] (g : β → α → β)
    (L : List α) (acc : β) :
    L.foldl (fun h i => if p i then g h i else h) acc =
      (L.filter fun i => decide (p i)).foldl g acc := by
  induction L generalizing acc with
  | nil => rfl
  | cons c L ih =>
    rw [List.foldl_cons, List.filter_cons]
    by_cases hc : p c
    · rw [if_pos hc, if_pos (by simpa using hc), List.foldl_cons, ih]
    · rw [if_neg hc, if_neg (by simpa using hc), ih]

theorem insertLeaves_eq (fr : List Nat) :
    insertLeaves fr = (((List.range 256).filter fun i => 0 < fr.getD i 0).foldl
      (fun h i => heap_insert h (HTree.leaf i (fr.getD i 0))) []) := by
  rw [insertLeaves, foldl_filter_if]

theorem heapChars_insertLeaves (fr : List Nat) :
    heapChars (insertLeaves fr) = ↑((List.range 256).filter fun i => 0 < fr.getD i 0) := by
  rw [insertLeaves_eq]
  have main : ∀ (L : List Nat) (acc : List HTree),
      heapChars (L.foldl (fun h i => heap_insert h (HTree.leaf i (fr.getD i 0))) acc) =
        heapChars acc + ↑L := by
    intro L
    induction L with
    | nil => intro acc; simp
    | cons c L ih =>
      intro acc
      rw [List.foldl_cons, ih, heapChars_heap_insert]
      simp only [HTree.leafChars, Multiset.coe_singleton]
      rw [← Multiset.cons_coe, ← Multiset.singleton_add]
      abel
  rw [main]
  simp [heapChars]

theorem length_insertLeaves (fr : List Nat) :
    (insertLeaves fr).length = uniqueCountOf fr := by
  rw [insertLeaves_eq, uniqueCountOf]
  have main : ∀ (L : List Nat) (acc : List HTree),
      (L.foldl (fun h i => heap_insert h (HTree.leaf i (fr.getD i 0))) acc).length =
        acc.length + L.length := by
    intro L
    induction L with
    | nil => intro acc; simp
    | cons c L ih =>
      intro acc
      rw [List.foldl_cons, ih, length_heap_insert]
      simp only [List.length_cons]
      omega
  rw [main]
  simp

/-- The multiset of leaf bytes of the tree `build_huffman_tree` returns is
exactly the set of byte values with nonzero frequency. -/
theorem build_huffman_tree_leafChars (fr : List Nat) (root : HTree)
    (h : build_huffman_tree fr = some root) :
    (↑root.leafChars : Multiset Nat) =
      ↑((List.range 256).filter fun i => 0 < fr.getD i 0) := by
  rw [build_huffman_tree_eq] at h
  split at h
  · exact absurd h (by simp)
  next hne =>
    rw [← heapChars_insertLeaves fr]
    by_cases h1 : (insertLeaves fr).length = 1
    · rw [if_pos h1] at h
      obtain ⟨t, ht⟩ := List.length_eq_one.mp h1
      rw [ht] at h
      simp only [heap_extract_min, Option.some.injEq] at h
      rw [ht, ← h, heapChars_cons]
      simp [heapChars]
    · rw [if_neg h1] at h
      have hge : 1 ≤ (insertLeaves fr).length := by
        rcases Nat.eq_zero_or_pos (insertLeaves fr).length with hz | hp
        · exfalso
          apply hne
          show uniqueCountOf fr = 0
          rw [← length_insertLeaves fr]
          exact hz
        · exact hp
      have hbl := length_buildLoop (insertLeaves fr).length (insertLeaves fr)
        (by omega) hge
      obtain ⟨t, ht⟩ := List.length_eq_one.mp hbl
      rw [ht] at h
      simp only [heap_extract_min, Option.some.injEq] at h
      rw [← heapChars_buildLoop (insertLeaves fr).length (insertLeaves fr), ht, ← h,
        heapChars_cons]
      simp [heapChars]

theorem build_leafChars_perm (fr : List Nat) (root : HTree)
    (h : build_huffman_tree fr = some root) :
    List.Perm root.leafChars ((List.range 256).filter fun i => 0 < fr.getD i 0) :=
  Multiset.coe_eq_coe.mp (build_huffman_tree_leafChars fr root h)

theorem build_leafChars_nodup (fr : List Nat) (root : HTree)
    (h : build_huffman_tree fr = some root) : root.leafChars.Nodup :=
  ((build_leafChars_perm fr root h).symm).nodup
    (List.Nodup.filter _ (List.nodup_range 256))

theorem mem_build_leafChars (fr : List Nat) (root : HTree)
    (h : build_huffman_tree fr = some root) (v : Nat) :
    v ∈ root.leafChars ↔ (v < 256 ∧ 0 < fr.getD v 0) := by
  rw [(build_leafChars_perm fr root h).mem_iff, List.mem_filter, List.mem_range]
  simp

theorem length_leafChars_eq (fr : List Nat) (root : HTree)
    (h : build_huffman_tree fr = some root) :
    root.leafChars.length = uniqueCountOf fr := by
  rw [(build_leafChars_perm fr root h).length_eq]
  rfl

/-- With at least two distinct nonzero frequencies the root is an internal
node. -/
theorem build_root_internal (fr : List Nat) (root : HTree)
    (h : build_huffman_tree fr = some root) (h2 : 2 ≤ uniqueCountOf fr) :
    ∃ f l r, root = HTree.node f l r := by
  match root with
  | .node f l r => exact ⟨f, l, r, rfl⟩
  | .leaf c f =>
    exfalso
    have := length_leafChars_eq fr _ h
    simp [HTree.leafChars] at this
    omega

theorem build_eq_none_iff (fr : List Nat) :
    build_huffman_tree fr = none ↔ uniqueCountOf fr = 0 := by
  rw [build_huffman_tree_eq]
  constructor
  · intro h
    split at h
    next hz => exact hz
    next hne =>
      exfalso
      by_cases h1 : (insertLeaves fr).length = 1
      · rw [if_pos h1] at h
        obtain ⟨t, ht⟩ := List.length_eq_one.mp h1
        rw [ht] at h
        simp [heap_extract_min] at h
      · rw [if_neg h1] at h
        have hge : 1 ≤ (insertLeaves fr).length := by
          rcases Nat.eq_zero_or_pos (insertLeaves fr).length with hz | hp
          · exfalso
            apply hne
            show uniqueCountOf fr = 0
            rw [← length_insertLeaves fr]
            exact hz
          · exact hp
        have hbl := length_buildLoop (insertLeaves fr).length (insertLeaves fr)
          (by omega) hge
        obtain ⟨t, ht⟩ := List.length_eq_one.mp hbl
        rw [ht] at h
        simp [heap_extract_min] at h
  · intro h
    unfold uniqueCountOf at h
    rw [if_pos h]

/-! ### Code generation: paths, prefix-freeness, Kraft equality -/

/-- The (byte, code) pairs recorded by `generate_codes_recursive` in
traversal order, starting from accumulated prefix `pre`. -/
def paths (t : HTree) (pre : List Bool) : List (Nat × List Bool) :=
  match t with
  | .leaf c _ => [(c, pre)]
  | .node _ l r => paths l (pre ++ [false]) ++ paths r (pre ++ [true])

theorem generate_codes_recursive_eq (t : HTree) (pre : List Bool) (codes : Codes) :
    generate_codes_recursive t pre codes =
      (paths t pre).foldl (fun cs p => cs.set p.1 (some p.2)) codes := by
  induction t generalizing pre codes with
  | leaf c f => rfl
  | node f l r ihl ihr =>
    simp only [generate_codes_recursive, paths, List.foldl_append, ihl, ihr]

theorem map_fst_paths (t : HTree) (pre : List Bool) :
    (paths t pre).map Prod.fst = t.leafChars := by
  induction t generalizing pre with
  | leaf c f => rfl
  | node f l r ihl ihr => simp [paths, HTree.leafChars, ihl, ihr]

theorem paths_append_shape (t : HTree) (pre : List Bool) (c : Nat) (p : List Bool)
    (h : (c, p) ∈ paths t pre) : ∃ s, p = pre ++ s := by
  induction t generalizing pre with
  | leaf c2 f =>
    simp only [paths, List.mem_singleton, Prod.mk.injEq] at h
    exact ⟨[], by rw [← h.2, List.append_nil]⟩
  | node f l r ihl ihr =>
    rw [paths, List.mem_append] at h
    rcases h with h | h
    · obtain ⟨s, hs⟩ := ihl _ h
      exact ⟨false :: s, by rw [hs, List.append_assoc]; rfl⟩
    · obtain ⟨s, hs⟩ := ihr _ h
      exact ⟨true :: s, by rw [hs, List.append_assoc]; rfl⟩

theorem paths_node_length (f : Nat) (l r : HTree) (pre : List Bool) (c : Nat) (p : List Bool)
    (h : (c, p) ∈ paths (HTree.node f l r) pre) : pre.length < p.length := by
  rw [paths, List.mem_append] at h
  rcases h with h | h
  · obtain ⟨s, hs⟩ := paths_append_shape _ _ _ _ h
    rw [hs]
    simp
  · obtain ⟨s, hs⟩ := paths_append_shape _ _ _ _ h
    rw [hs]
    simp

/-- `a` is an initial segment of `b`. -/
def IsPref (a b : List Bool) : Prop := ∃ s, a ++ s = b

theorem paths_pairwise (t : HTree) (pre : List Bool) :
    (paths t pre).Pairwise (fun a b => ¬ IsPref a.2 b.2 ∧ ¬ IsPref b.2 a.2) := by
  induction t generalizing pre with
  | leaf c f => simp [paths]
  | node f l r ihl ihr =>
    rw [paths, List.pairwise_append]
    refine ⟨ihl _, ihr _, ?_⟩
    intro a ha b hb
    obtain ⟨s1, hs1⟩ := paths_append_shape _ _ _ _ ha
    obtain ⟨s2, hs2⟩ := paths_append_shape _ _ _ _ hb
    constructor
    · rintro ⟨u, hu⟩
      rw [hs1, hs2, List.append_assoc, List.append_assoc, List.append_assoc] at hu
      have hc := List.append_cancel_left hu
      simp at hc
    · rintro ⟨u, hu⟩
      rw [hs1, hs2, List.append_assoc, List.append_assoc, List.append_assoc] at hu
      have hc := List.append_cancel_left hu
      simp at hc

theorem foldl_set_getD_not_mem (ps : List (Nat × List Bool)) (cs : Codes) (c : Nat)
    (h : c ∉ ps.map Prod.fst) :
    ((ps.foldl (fun cs p => cs.set p.1 (some p.2)) cs).getD c none) = cs.getD c none := by
  induction ps generalizing cs with
  | nil => rfl
  | cons q ps ih =>
    simp only [List.map_cons, List.mem_cons, not_or] at h
    rw [List.foldl_cons, ih _ h.2, getD_set_ne _ _ _ _ _ (fun he => h.1 (by rw [he]))]

theorem foldl_set_getD_mem (ps : List (Nat × List Bool)) (cs : Codes) (c : Nat)
    (p : List Bool) (hlen : cs.length = 256) (hnodup : (ps.map Prod.fst).Nodup)
    (hmem : (c, p) ∈ ps) (hc : c < 256) :
    ((ps.foldl (fun cs p => cs.set p.1 (some p.2)) cs).getD c none) = some p := by
  induction ps generalizing cs with
  | nil => simp at hmem
  | cons q ps ih =>
    rw [List.foldl_cons]
    rcases List.mem_cons.mp hmem with heq | htail
    · rw [← heq]
      rw [← heq] at hnodup
      simp only [List.map_cons, List.nodup_cons] at hnodup
      rw [foldl_set_getD_not_mem _ _ _ hnodup.1, getD_set_self _ _ _ _ (by omega)]
    · refine ih _ (by simp [hlen]) ?_ htail
      simp only [List.map_cons, List.nodup_cons] at hnodup
      exact hnodup.2

theorem mem_paths_of_mem_leafChars (t : HTree) (pre : List Bool) (c : Nat)
    (h : c ∈ t.leafChars) : ∃ p, (c, p) ∈ paths t pre := by
  rw [← map_fst_paths t pre] at h
  obtain ⟨q, hq, hq2⟩ := List.mem_map.mp h
  exact ⟨q.2, by rw [← hq2]; simpa using hq⟩

theorem gcr_lookup_mem (t : HTree) (hnodup : t.leafChars.Nodup)
    (c : Nat) (p : List Bool) (hc : c < 256) (hmem : (c, p) ∈ paths t []) :
    (generate_codes_recursive t [] (List.replicate 256 none)).getD c none = some p := by
  rw [generate_codes_recursive_eq]
  refine foldl_set_getD_mem _ _ _ _ (by rw [List.length_replicate]) ?_ hmem hc
  rw [map_fst_paths]
  exact hnodup

theorem gcr_lookup_not_mem (t : HTree) (c : Nat) (hnm : c ∉ t.leafChars) :
    (generate_codes_recursive t [] (List.replicate 256 none)).getD c none = none := by
  rw [generate_codes_recursive_eq, foldl_set_getD_not_mem _ _ _ (by rwa [map_fst_paths]),
    getD_replicate]
  split <;> rfl

theorem gcr_lookup_inv (t : HTree) (hnodup : t.leafChars.Nodup)
    (hlt : ∀ x ∈ t.leafChars, x < 256) (c : Nat) (p : List Bool)
    (hsome : (generate_codes_recursive t [] (List.replicate 256 none)).getD c none = some p) :
    (c, p) ∈ paths t [] := by
  by_cases hm : c ∈ t.leafChars
  · obtain ⟨p2, hp2⟩ := mem_paths_of_mem_leafChars t [] c hm
    have := gcr_lookup_mem t hnodup c p2 (hlt c hm) hp2
    rw [this] at hsome
    cases hsome
    exact hp2
  · rw [gcr_lookup_not_mem t c hm] at hsome
    cases hsome

/-- Kraft sum of a subtree: the path weights below prefix `pre` add up to
the weight of `pre` itself. -/
theorem kraft_paths (t : HTree) (pre : List Bool) :
    (((paths t pre).map fun p => ((2 : ℚ)⁻¹) ^ p.2.length).sum) =
      ((2 : ℚ)⁻¹) ^ pre.length := by
  induction t generalizing pre with
  | leaf c f => simp [paths]
  | node f l r ihl ihr =>
    rw [paths, List.map_append, List.sum_append, ihl, ihr]
    simp only [List.length_append, List.length_cons, List.length_nil, pow_succ]
    ring

/-- The contribution of one `Code` entry to the Kraft sum. -/
def codeTerm : Option (List Bool) → ℚ
  | some c => ((2 : ℚ)⁻¹) ^ c.length
  | none => 0

theorem sum_codeTerm_set (cs : Codes) (c : Nat) (val : Option (List Bool))
    (hclen : c < cs.length) :
    ∀ n, c < n →
      (((List.range n).map fun v => codeTerm ((cs.set c val).getD v none)).sum) +
          codeTerm (cs.getD c none) =
        (((List.range n).map fun v => codeTerm (cs.getD v none)).sum) + codeTerm val := by
  intro n
  induction n with
  | zero => omega
  | succ n ih =>
    intro hcn
    rw [List.range_succ, List.map_append, List.map_append, List.sum_append, List.sum_append]
    rcases eq_or_ne c n with rfl | hne
    · have hagree : ((List.range c).map fun v => codeTerm ((cs.set c val).getD v none)) =
          ((List.range c).map fun v => codeTerm (cs.getD v none)) := by
        apply List.map_congr_left
        intro v hv
        rw [List.mem_range] at hv
        rw [getD_set_ne _ _ _ _ _ (by omega)]
      rw [hagree]
      simp only [List.map_cons, List.map_nil, List.sum_cons, List.sum_nil]
      rw [getD_set_self _ _ _ _ hclen]
      ring
    · have hcn2 : c < n := by omega
      simp only [List.map_cons, List.map_nil, List.sum_cons, List.sum_nil]
      rw [getD_set_ne _ _ _ _ _ hne]
      have hih := ih hcn2
      linarith

theorem sum_codeTerm_foldl (ps : List (Nat × List Bool)) (cs : Codes)
    (hlen : cs.length = 256) (hnodup : (ps.map Prod.fst).Nodup)
    (hlt : ∀ q ∈ ps, q.1 < 256) (hfresh : ∀ q ∈ ps, cs.getD q.1 none = none) :
    (((List.range 256).map fun v =>
        codeTerm ((ps.foldl (fun cs p => cs.set p.1 (some p.2)) cs).getD v none)).sum) =
      (((List.range 256).map fun v => codeTerm (cs.getD v none)).sum) +
        ((ps.map fun p => ((2 : ℚ)⁻¹) ^ p.2.length).sum) := by
  induction ps generalizing cs with
  | nil => simp
  | cons q ps ih =>
    simp only [List.map_cons, List.nodup_cons] at hnodup
    rw [List.foldl_cons, ih (cs.set q.1 (some q.2)) (by simp [hlen]) hnodup.2
      (fun x hx => hlt x (by simp [hx])) ?fresh]
    case fresh =>
      intro x hx
      have hne : q.1 ≠ x.1 := by
        intro he
        apply hnodup.1
        rw [he]
        exact List.mem_map.mpr ⟨x, hx, rfl⟩
      rw [getD_set_ne _ _ _ _ _ hne]
      exact hfresh x (by simp [hx])
    have hset := sum_codeTerm_set cs q.1 (some q.2) (by rw [hlen]; exact hlt q (by simp))
      256 (hlt q (by simp))
    rw [hfresh q (by simp)] at hset
    simp only [codeTerm] at hset
    simp only [List.map_cons, List.sum_cons, codeTerm]
    linarith

/-! ### Bit-level semantics: what the BitReader actually yields -/

/-- Bit `k` (counting from the least significant end) of byte `b`, as the C
expression `(b >> k) & 1`. -/
def nthBitLSB (b k : Nat) : Bool := ((b >>> k) &&& 1) == 1

/-- The bit sequence the BitReader yields from one fetched byte: it extracts
`(buffer >> (7 - pos)) & 1` with `pos = 7, 6, ..., 0`, i.e. bit 0 first —
least significant bit first. -/
def byte_bits (b : Nat) : List Bool := (List.range 8).map fun k => nthBitLSB b k

/-- Every bit a reader state can still deliver, in delivery order. -/
def reader_bits (br : BitReader) : List Bool :=
  (((List.range br.bitCount).map fun j => nthBitLSB br.buffer (8 - br.bitCount + j))) ++
    br.input.flatMap byte_bits

/-- One `bitreader_read_bit` step agrees with `reader_bits`: EOF exactly on
an empty bit supply, otherwise the head bit is delivered and the rest
remains. -/
theorem read_bit_spec (br : BitReader) (hbc : br.bitCount ≤ 8) :
    (bitreader_read_bit br = none ∧ reader_bits br = []) ∨
    (∃ b br2, bitreader_read_bit br = some (b, br2) ∧
      reader_bits br = b :: reader_bits br2 ∧ br2.bitCount ≤ 8) := by
  rcases Nat.eq_zero_or_pos br.bitCount with h0 | hpos
  · match hi : br.input with
    | [] =>
      left
      constructor
      · rw [bitreader_read_bit, if_pos h0, hi]
      · rw [reader_bits, h0, hi]
        simp
    | byte :: rest =>
      right
      refine ⟨nthBitLSB byte 0, ⟨rest, byte, 7⟩, ?_, ?_, by show (7 : Nat) ≤ 8; omega⟩
      · rw [bitreader_read_bit, if_pos h0, hi]
        rfl
      · rw [reader_bits, reader_bits, h0, hi]
        simp only [List.range_zero, List.map_nil, List.nil_append, List.flatMap_cons]
        rw [byte_bits]
        have h8 : List.range 8 = 0 :: (List.range 7).map (· + 1) := by decide
        rw [h8]
        simp only [List.map_cons, List.map_map, List.cons_append]
        apply congrArg (nthBitLSB byte 0 :: ·)
        apply congrArg (· ++ rest.flatMap byte_bits)
        apply List.map_congr_left
        intro j hj
        show nthBitLSB byte (j + 1) = nthBitLSB byte (8 - 7 + j)
        have : j + 1 = 8 - 7 + j := by omega
        rw [this]
  · right
    refine ⟨nthBitLSB br.buffer (8 - br.bitCount), ⟨br.input, br.buffer, br.bitCount - 1⟩,
      ?_, ?_, by show br.bitCount - 1 ≤ 8; omega⟩
    · rw [bitreader_read_bit, if_neg (by omega)]
      have h1 : 7 - (br.bitCount - 1) = 8 - br.bitCount := by omega
      rw [h1]
      rfl
    · rw [reader_bits, reader_bits]
      simp only
      rw [← List.cons_append]
      apply congrArg (· ++ br.input.flatMap byte_bits)
      have hsplit : List.range br.bitCount = 0 :: (List.range (br.bitCount - 1)).map (· + 1) := by
        match hbc2 : br.bitCount, hpos with
        | n + 1, _ =>
          rw [List.range_succ_eq_map]
          simp
      rw [hsplit]
      simp only [List.map_cons, List.map_map, Nat.add_zero]
      apply congrArg (nthBitLSB br.buffer (8 - br.bitCount) :: ·)
      apply List.map_congr_left
      intro j hj
      show nthBitLSB br.buffer (8 - br.bitCount + (j + 1)) =
        nthBitLSB br.buffer (8 - (br.bitCount - 1) + j)
      have : 8 - br.bitCount + (j + 1) = 8 - (br.bitCount - 1) + j := by omega
      rw [this]

/-- The pure counterpart of `decode_loop`, reading from a bit list instead
of a `BitReader`. -/
def decode_bits (root : Option HTree) : Option HTree → List Bool → Nat → Nat → List Nat →
    Except CodecError (List Nat)
  | cur, bits, total, written, acc =>
    if written < total then
      match bits with
      | [] => .error .unexpectedEndOfStream
      | bit :: rest =>
        match cur with
        | none => .error .nullDeref
        | some (.leaf _ _) => .error .nullDeref
        | some (.node _ l r) =>
          match (if bit then r else l) with
          | .leaf c _ => decode_bits root root rest total (written + 1) (acc ++ [c])
          | .node f2 l2 r2 => decode_bits root (some (.node f2 l2 r2)) rest total written acc
    else .ok acc

/-- `decode_loop` over a reader computes `decode_bits` over the reader's
bit stream. -/
theorem decode_loop_eq_decode_bits (root : Option HTree) (fuel : Nat) (cur : Option HTree)
    (br : BitReader) (total written : Nat) (acc : List Nat) (hbc : br.bitCount ≤ 8)
    (hfuel : 8 * br.input.length + br.bitCount < fuel) :
    decode_loop root fuel cur br total written acc =
      decode_bits root cur (reader_bits br) total written acc := by
  induction fuel generalizing cur br written acc with
  | zero => omega
  | succ fuel ih =>
    unfold decode_loop decode_bits
    rcases read_bit_spec br hbc with ⟨hnone, hbits⟩ | ⟨b, br2, hsome, hbits, hbc2⟩
    · rw [hnone, hbits]
    · rw [hsome, hbits]
      have hsz := bitreader_read_bit_size _ _ _ hsome
      split
      next hw =>
        match cur with
        | none => rfl
        | some (.leaf _ _) => rfl
        | some (.node _ l r) =>
          dsimp only
          match h3 : (if b then r else l) with
          | .leaf c _ => exact ih root br2 (written + 1) (acc ++ [c]) hbc2 (by omega)
          | .node f2 l2 r2 =>
            exact ih (some (.node f2 l2 r2)) br2 written acc hbc2 (by omega)
      next => rfl

/-- Success of the pure decoder always delivers exactly `total` bytes. -/
theorem decode_bits_length (root : Option HTree) (bits : List Bool) :
    ∀ (cur : Option HTree) (total written : Nat) (acc : List Nat),
      acc.length = written → written ≤ total →
      ∀ out, decode_bits root cur bits total written acc = .ok out → out.length = total := by
  induction bits with
  | nil =>
    intro cur total written acc hacc hwt out hok
    unfold decode_bits at hok
    split at hok
    · exact absurd hok (by simp)
    next hw =>
      simp only [Except.ok.injEq] at hok
      rw [← hok, hacc]
      omega
  | cons bit rest ih =>
    intro cur total written acc hacc hwt out hok
    unfold decode_bits at hok
    split at hok
    next hw =>
      match cur, hok with
      | none, hok => exact absurd hok (by simp)
      | some (.leaf _ _), hok => exact absurd hok (by simp)
      | some (.node _ l r), hok =>
        dsimp only at hok
        match h3 : (if bit then r else l), hok with
        | .leaf c _, hok =>
          exact ih root total (written + 1) (acc ++ [c]) (by simp [hacc]) (by omega) out hok
        | .node f2 l2 r2, hok =>
          exact ih (some (.node f2 l2 r2)) total written acc hacc (by omega) out hok
    next hw =>
      simp only [Except.ok.injEq] at hok
      rw [← hok, hacc]
      omega

/-- How many whole symbols the decoder can recover from a bit supply before
it runs dry, starting at `cur` and restarting at `root` after each symbol. -/
def symbols_decodable (root : HTree) : HTree → List Bool → Nat
  | _, [] => 0
  | cur, bit :: rest =>
    match cur with
    | .leaf _ _ => 0
    | .node _ l r =>
      match (if bit then r else l) with
      | .leaf _ _ => symbols_decodable root root rest + 1
      | .node f2 l2 r2 => symbols_decodable root (.node f2 l2 r2) rest

theorem symbols_decodable_cons (root : HTree) (f : Nat) (l r : HTree) (bit : Bool)
    (rest : List Bool) :
    symbols_decodable root (HTree.node f l r) (bit :: rest) =
      (match (if bit then r else l) with
      | .leaf _ _ => symbols_decodable root root rest + 1
      | .node f2 l2 r2 => symbols_decodable root (.node f2 l2 r2) rest) := rfl

/-- If the bit supply is exhausted before `total` symbols can be decoded,
the pure decoder reports `UnexpectedEndOfStreamError`. -/
theorem decode_bits_eos (root : HTree) (hroot : ∃ f l r, root = HTree.node f l r)
    (bits : List Bool) :
    ∀ (cur : HTree), (∃ f l r, cur = HTree.node f l r) →
      ∀ (total written : Nat) (acc : List Nat),
        written + symbols_decodable root cur bits < total →
        decode_bits (some root) (some cur) bits total written acc =
          .error .unexpectedEndOfStream := by
  induction bits with
  | nil =>
    intro cur hcur total written acc hlt
    unfold decode_bits
    rw [if_pos (by omega)]
  | cons bit rest ih =>
    intro cur hcur total written acc hlt
    obtain ⟨f, l, r, rfl⟩ := hcur
    unfold decode_bits
    rw [if_pos (by omega)]
    dsimp only
    match h3 : (if bit then r else l) with
    | .leaf c f2 =>
      refine ih root hroot total (written + 1) (acc ++ [c]) ?_
      have hsd : symbols_decodable root (HTree.node f l r) (bit :: rest) =
          symbols_decodable root root rest + 1 := by
        rw [symbols_decodable_cons, h3]
      omega
    | .node f2 l2 r2 =>
      refine ih (HTree.node f2 l2 r2) ⟨f2, l2, r2, rfl⟩ total written acc ?_
      have hsd : symbols_decodable root (HTree.node f l r) (bit :: rest) =
          symbols_decodable root (HTree.node f2 l2 r2) rest := by
        rw [symbols_decodable_cons, h3]
      omega

/-- When `written ≥ total` the loop exits immediately with success (any
nonzero fuel). -/
theorem decode_loop_done (root cur : Option HTree) (br : BitReader) (total written : Nat)
    (acc : List Nat) (h : ¬ written < total) (fuel : Nat) (hf : 0 < fuel) :
    decode_loop root fuel cur br total written acc = .ok acc := by
  match fuel, hf with
  | fuel + 1, _ =>
    unfold decode_loop
    rw [if_neg h]

/-- Read `n` bits through `bitreader_read_bit`. -/
def read_bits (br : BitReader) : Nat → Option (List Bool)
  | 0 => some []
  | n + 1 =>
    match bitreader_read_bit br with
    | none => none
    | some (b, br2) => (read_bits br2 n).map fun bs => b :: bs

/-! ### Structure of a successful compression -/

theorem encode_pass_some (codes : Codes) (input : List Nat)
    (h : ∀ c ∈ input, codes.getD c none ≠ none) :
    ∀ bw, ∃ bw2, encode_pass codes input bw = some bw2 := by
  induction input with
  | nil => exact fun bw => ⟨bw, rfl⟩
  | cons c rest ih =>
    intro bw
    unfold encode_pass
    match hc : codes.getD c none with
    | none => exact absurd hc (h c (by simp))
    | some bits => exact ih (fun x hx => h x (by simp [hx])) _

theorem compress_file_ok_inv (input : List Nat) (blob : List Nat)
    (h : compress_file input = .ok blob) :
    ∃ root bw, build_huffman_tree (count_frequencies input) = some root ∧
      encode_pass (generate_codes root) input bitwriter_create = some bw ∧
      blob = write_header (total_chars input) (count_frequencies input) ++
        bitwriter_flush bw := by
  unfold compress_file at h
  match hb : build_huffman_tree (count_frequencies input) with
  | none => rw [hb] at h; exact absurd h (by simp)
  | some root =>
    rw [hb] at h
    dsimp only at h
    match he : encode_pass (generate_codes root) input bitwriter_create with
    | none => rw [he] at h; exact absurd h (by simp)
    | some bw =>
      rw [he] at h
      simp only [Except.ok.injEq] at h
      exact ⟨root, bw, rfl, he, h.symm⟩

theorem compress_file_ok_of (input : List Nat) (root : HTree)
    (hb : build_huffman_tree (count_frequencies input) = some root)
    (hcodes : ∀ c ∈ input, (generate_codes root).getD c none ≠ none) :
    ∃ bw, compress_file input = .ok (write_header (total_chars input)
      (count_frequencies input) ++ bitwriter_flush bw) := by
  obtain ⟨bw, hbw⟩ := encode_pass_some _ _ hcodes bitwriter_create
  refine ⟨bw, ?_⟩
  unfold compress_file
  rw [hb]
  dsimp only
  rw [hbw]

theorem reader_bits_init (bytes : List Nat) :
    reader_bits ⟨bytes, 0, 0⟩ = bytes.flatMap byte_bits := by
  rw [reader_bits]
  simp

/-- Starting from internal nodes, the pure decoder can never reach the
`NULL`-dereference branch. -/
theorem decode_bits_no_crash (root : HTree) (hroot : ∃ f l r, root = HTree.node f l r)
    (bits : List Bool) :
    ∀ (cur : HTree), (∃ f l r, cur = HTree.node f l r) →
      ∀ (total written : Nat) (acc : List Nat),
        decode_bits (some root) (some cur) bits total written acc ≠
          .error .nullDeref := by
  induction bits with
  | nil =>
    intro cur hcur total written acc
    unfold decode_bits
    split
    · simp
    · simp
  | cons bit rest ih =>
    intro cur hcur total written acc
    obtain ⟨f, l, r, rfl⟩ := hcur
    unfold decode_bits
    split
    next hw =>
      dsimp only
      match h3 : (if bit then r else l) with
      | .leaf c f2 => exact ih root hroot total (written + 1) (acc ++ [c])
      | .node f2 l2 r2 => exact ih (HTree.node f2 l2 r2) ⟨f2, l2, r2, rfl⟩ total written acc
    next => simp

theorem decompress_file_decode_branch (blob : List Nat) (h2056 : 2056 ≤ blob.length)
    (hnt : ¬ (build_huffman_tree (read_header_freqs blob) = none ∧
      0 < read_header_total blob))
    (hn1 : uniqueCountOf (read_header_freqs blob) ≠ 1) :
    decompress_file blob =
      decode_loop (build_huffman_tree (read_header_freqs blob))
        (8 * (blob.drop 2056).length + 1) (build_huffman_tree (read_header_freqs blob))
        ⟨blob.drop 2056, 0, 0⟩ (read_header_total blob) 0 [] := by
  unfold decompress_file
  rw [if_neg (by omega), if_neg (by omega), if_neg hnt, if_neg hn1]

/-- C3: a blob whose header is shorter than 2056 bytes is rejected with
`TruncatedHeaderError`; a successful decompression always returns exactly
`totalSymbolCount` bytes, never a silently short result; if, with at least
two symbols in the table, the bitstream runs out before `totalSymbolCount`
symbols are decoded, the result is `UnexpectedEndOfStreamError`; and the
decoder never reaches the modelled `NULL`-pointer crash.  Termination is
inherent in the model: `decompress_file` is a total function. -/
theorem claim_C3 (blob : List Nat) :
    (blob.length < 2056 → decompress_file blob = .error .truncatedHeader) ∧
    (∀ out, decompress_file blob = .ok out → out.length = read_header_total blob) ∧
    (∀ root, 2056 ≤ blob.length →
      build_huffman_tree (read_header_freqs blob) = some root →
      uniqueCountOf (read_header_freqs blob) ≠ 1 →
      symbols_decodable root root ((blob.drop 2056).flatMap byte_bits) <
        read_header_total blob →
      decompress_file blob = .error .unexpectedEndOfStream) ∧
    (decompress_file blob ≠ .error .nullDeref) := by
  have hC1 : blob.length < 2056 → decompress_file blob = .error .truncatedHeader := by
    intro hlen
    unfold decompress_file
    rcases Nat.lt_or_ge blob.length 8 with h8 | h8
    · rw [if_pos h8]
    · rw [if_neg (by omega), if_pos (by omega)]
  refine ⟨hC1, ?_, ?_, ?_⟩
  · -- successful output length
    intro out hok
    rcases Nat.lt_or_ge blob.length 2056 with hlen | hlen
    · rw [hC1 hlen] at hok
      exact absurd hok (by simp)
    · by_cases hnt : build_huffman_tree (read_header_freqs blob) = none ∧
        0 < read_header_total blob
      · unfold decompress_file at hok
        rw [if_neg (by omega), if_neg (by omega), if_pos hnt] at hok
        exact absurd hok (by simp)
      · by_cases hn1 : uniqueCountOf (read_header_freqs blob) = 1
        · unfold decompress_file at hok
          rw [if_neg (by omega), if_neg (by omega), if_neg hnt, if_pos hn1] at hok
          simp only [Except.ok.injEq] at hok
          rw [← hok, List.length_replicate]
        · rw [decompress_file_decode_branch blob hlen hnt hn1] at hok
          rw [decode_loop_eq_decode_bits _ _ _ _ _ _ _ (by show (0:Nat) ≤ 8; omega)
            (by show 8 * (blob.drop 2056).length + 0 < _; omega)] at hok
          exact decode_bits_length _ _ _ _ 0 [] rfl (by omega) out hok
  · -- truncated bitstream
    intro root hlen hb hn1 hshort
    rw [decompress_file_decode_branch blob hlen (by rw [hb]; simp) hn1, hb]
    rw [decode_loop_eq_decode_bits _ _ _ _ _ _ _ (by show (0:Nat) ≤ 8; omega)
      (by show 8 * (blob.drop 2056).length + 0 < _; omega), reader_bits_init]
    have hu0 : uniqueCountOf (read_header_freqs blob) ≠ 0 := by
      intro h0
      rw [← build_eq_none_iff] at h0
      rw [h0] at hb
      cases hb
    have hint := build_root_internal _ _ hb (by omega)
    exact decode_bits_eos root hint _ root hint _ 0 [] (by omega)
  · -- no NULL dereference
    rcases Nat.lt_or_ge blob.length 2056 with hlen | hlen
    · rw [hC1 hlen]
      simp
    · by_cases hnt : build_huffman_tree (read_header_freqs blob) = none ∧
        0 < read_header_total blob
      · unfold decompress_file
        rw [if_neg (by omega), if_neg (by omega), if_pos hnt]
        simp
      · by_cases hn1 : uniqueCountOf (read_header_freqs blob) = 1
        · unfold decompress_file
          rw [if_neg (by omega), if_neg (by omega), if_neg hnt, if_pos hn1]
          simp
        · rw [decompress_file_decode_branch blob hlen hnt hn1]
          match hb : build_huffman_tree (read_header_freqs blob) with
          | none =>
            have htz : ¬ 0 < read_header_total blob := fun hgt => hnt ⟨hb, hgt⟩
            rw [decode_loop_done _ _ _ _ _ _ (by omega) _ (by omega)]
            simp
          | some root =>
            rw [decode_loop_eq_decode_bits _ _ _ _ _ _ _ (by show (0:Nat) ≤ 8; omega)
              (by show 8 * (blob.drop 2056).length + 0 < _; omega), reader_bits_init]
            have hu0 : uniqueCountOf (read_header_freqs blob) ≠ 0 := by
              intro h0
              rw [← build_eq_none_iff] at h0
              rw [h0] at hb
              cases hb
            have hint := build_root_internal _ _ hb (by omega)
            exact decode_bits_no_crash root hint _ root hint _ 0 []

theorem claim_C3_witness : decompress_file (List.replicate 10 0) = .error .truncatedHeader :=
  (claim_C3 (List.replicate 10 0)).1 (by rw [List.length_replicate]; omega)

/-! ### The degenerate single-symbol table -/

theorem filter_range_single (p : Nat → Prop) [DecidablePred p] (v n : Nat) (hv : v < n)
    (hpv : p v) (hrest : ∀ i, i < n → i ≠ v → ¬ p i) :
    (List.range n).filter (fun i => decide (p i)) = [v] := by
  have hsub : ∀ i ∈ List.range n, (decide (p i)) = (i == v) := by
    intro i hi
    rw [List.mem_range] at hi
    rcases eq_or_ne i v with rfl | hne
    · simp [hpv]
    · simp [hrest i hi hne, hne]
  rw [List.filter_congr hsub, List.filter_beq,
    List.count_eq_one_of_mem (List.nodup_range n) (List.mem_range.mpr hv)]
  rfl

theorem insertLeaves_single (fr : List Nat) (v : Nat) (hv : v < 256)
    (hpv : 0 < fr.getD v 0) (hrest : ∀ i, i < 256 → i ≠ v → fr.getD i 0 = 0) :
    insertLeaves fr = [HTree.leaf v (fr.getD v 0)] := by
  rw [insertLeaves_eq, filter_range_single (fun i => 0 < fr.getD i 0) v 256 hv hpv
    (fun i hi hne => by show ¬ 0 < fr.getD i 0; rw [hrest i hi hne]; omega)]
  rfl

theorem uniqueCountOf_single (fr : List Nat) (v : Nat) (hv : v < 256)
    (hpv : 0 < fr.getD v 0) (hrest : ∀ i, i < 256 → i ≠ v → fr.getD i 0 = 0) :
    uniqueCountOf fr = 1 := by
  unfold uniqueCountOf
  rw [filter_range_single (fun i => 0 < fr.getD i 0) v 256 hv hpv
    (fun i hi hne => by show ¬ 0 < fr.getD i 0; rw [hrest i hi hne]; omega)]
  rfl

theorem onlyCharOf_single (fr : List Nat) (v : Nat) (hv : v < 256)
    (hpv : 0 < fr.getD v 0) (hrest : ∀ i, i < 256 → i ≠ v → fr.getD i 0 = 0) :
    onlyCharOf fr = v := by
  unfold onlyCharOf
  rw [foldl_filter_if (fun i => 0 < fr.getD i 0) (fun acc i => i) (List.range 256) 0,
    filter_range_single (fun i => 0 < fr.getD i 0) v 256 hv hpv
      (fun i hi hne => by show ¬ 0 < fr.getD i 0; rw [hrest i hi hne]; omega)]
  rfl

theorem build_single (fr : List Nat) (v : Nat) (hv : v < 256)
    (hpv : 0 < fr.getD v 0) (hrest : ∀ i, i < 256 → i ≠ v → fr.getD i 0 = 0) :
    build_huffman_tree fr = some (HTree.leaf v (fr.getD v 0)) := by
  rw [build_huffman_tree_eq,
    if_neg (by
      rw [filter_range_single (fun i => 0 < fr.getD i 0) v 256 hv hpv
        (fun i hi hne => by show ¬ 0 < fr.getD i 0; rw [hrest i hi hne]; omega)]
      simp),
    insertLeaves_single fr v hv hpv hrest]
  rfl

theorem uniqueCountOf_replicate_zero : uniqueCountOf (List.replicate 256 0) = 0 := by
  have hfil : ((List.range 256).filter fun i =>
      0 < (List.replicate 256 (0 : Nat)).getD i 0) = [] := by
    apply List.filter_eq_nil_iff.mpr
    intro a ha
    rw [getD_replicate]
    split <;> simp
  unfold uniqueCountOf
  rw [hfil]
  rfl

theorem build_replicate_zero : build_huffman_tree (List.replicate 256 0) = none := by
  rw [build_eq_none_iff]
  exact uniqueCountOf_replicate_zero

theorem compress_file_nil : compress_file [] = .error .emptyInput := by
  unfold compress_file
  rw [show build_huffman_tree (count_frequencies []) = none by
    rw [build_eq_none_iff]
    exact uniqueCountOf_replicate_zero]

theorem compress_file2_nil : compress_file2 [] = .error .emptyInput := by
  unfold compress_file2
  rw [if_pos (show total_chars [] = 0 from rfl)]

/-- C4: compressing the empty byte sequence fails with `EmptyInputError` in
both `huffman.c` and `huffman2.c`, producing no blob, and a successful
compression implies the input was nonempty. -/
theorem claim_C4 :
    compress_file [] = .error .emptyInput ∧ compress_file2 [] = .error .emptyInput ∧
    (∀ (b blob : List Nat), compress_file b = .ok blob → b ≠ []) ∧
    (∀ (b blob : List Nat), compress_file2 b = .ok blob → b ≠ []) := by
  have h1 := compress_file_nil
  have h2 := compress_file2_nil
  refine ⟨h1, h2, ?_, ?_⟩
  · intro b blob hok heq
    subst heq
    rw [h1] at hok
    exact absurd hok (by simp)
  · intro b blob hok heq
    subst heq
    rw [h2] at hok
    exact absurd hok (by simp)

theorem build_count97 : build_huffman_tree (count_frequencies [97]) =
    some (HTree.leaf 97 1) := by
  have hcf : count_frequencies [97] = (List.replicate 256 0).set 97 1 := by decide
  have hself : ((List.replicate 256 0).set 97 1).getD 97 0 = 1 :=
    getD_set_self _ _ _ _ (by rw [List.length_replicate]; omega)
  have hrest : ∀ i, i < 256 → i ≠ 97 →
      ((List.replicate 256 0).set 97 1).getD i 0 = 0 := by
    intro i hi hne
    rw [getD_set_ne _ _ _ _ _ (fun he => hne he.symm), getD_replicate, if_pos hi]
  rw [hcf]
  have hbs := build_single ((List.replicate 256 0).set 97 1) 97 (by omega)
    (by rw [hself]; omega) hrest
  rw [hself] at hbs
  exact hbs

theorem compress97_ok : ∃ bw, compress_file [97] = .ok (write_header (total_chars [97])
    (count_frequencies [97]) ++ bitwriter_flush bw) := by
  have hcodes : ∀ c ∈ [97], (generate_codes (HTree.leaf 97 1)).getD c none ≠ none := by
    intro c hc
    simp only [List.mem_singleton] at hc
    subst hc
    show ((List.replicate 256 (none : Option (List Bool))).set 97 (some [false])).getD 97
      none ≠ none
    rw [getD_set_self _ _ _ _ (by rw [List.length_replicate]; omega)]
    simp
  exact compress_file_ok_of [97] (HTree.leaf 97 1) build_count97 hcodes

theorem claim_C4_witness : ([97] : List Nat) ≠ [] := by
  obtain ⟨bw, hok⟩ := compress97_ok
  exact claim_C4.2.2.1 [97] _ hok

/-- C9: a well-formed 2056-byte header that is entirely zero
(`totalSymbolCount = 0`, all 256 frequency counters 0) decompresses
successfully to empty output, whatever bytes follow it — the `NULL` tree
together with a zero count is not an error — even though `compress_file`
can never produce such a blob: every blob it emits carries a nonzero
frequency counter in its header. -/
theorem claim_C9 :
    (∀ rest : List Nat, decompress_file (List.replicate 2056 0 ++ rest) = .ok []) ∧
    (∀ (b blob : List Nat), compress_file b = .ok blob →
      read_header_freqs blob ≠ List.replicate 256 0) := by
  constructor
  · intro rest
    have hlen : 2056 ≤ (List.replicate 2056 (0 : Nat) ++ rest).length := by
      rw [List.length_append, List.length_replicate]
      omega
    have htot : read_header_total (List.replicate 2056 0 ++ rest) = 0 := by
      rw [read_header_total, List.take_append_of_le_length (by rw [List.length_replicate]; omega),
        List.take_replicate]
      decide
    have hfreqs : read_header_freqs (List.replicate 2056 0 ++ rest) = List.replicate 256 0 := by
      rw [read_header_freqs]
      have hmap : ∀ v ∈ List.range 256,
          bytes_to_u64 (((List.replicate 2056 0 ++ rest).drop (8 + 8 * v)).take 8) = 0 := by
        intro v hv
        rw [List.mem_range] at hv
        rw [List.drop_append_of_le_length (by rw [List.length_replicate]; omega),
          List.drop_replicate, List.take_append_of_le_length
            (by rw [List.length_replicate]; omega),
          List.take_replicate, Nat.min_def, if_pos (by omega)]
        decide
      rw [List.map_congr_left hmap]
      have : (List.range 256).map (fun _ => (0 : Nat)) = List.replicate 256 0 := by
        rw [List.map_const']
        rw [List.length_range]
      exact this
    unfold decompress_file
    rw [if_neg (by omega), if_neg (by omega), if_neg (by rw [htot]; simp),
      if_neg (by rw [hfreqs, uniqueCountOf_replicate_zero]; omega),
      decode_loop_done _ _ _ _ _ _ (by rw [htot]; omega) _ (by omega)]
  · intro b blob hok hzero
    obtain ⟨root, bw, hroot, hbw, hblob⟩ := compress_file_ok_inv b blob hok
    have hfr : read_header_freqs blob = count_frequencies b := by
      rw [hblob]
      exact read_header_freqs_write _ _ _ (length_count_frequencies b)
        (fun i => getD_count_frequencies_lt b i)
    rw [hfr] at hzero
    rw [hzero, build_replicate_zero] at hroot
    cases hroot

theorem claim_C9_witness :
    read_header_freqs (okBytes (compress_file [97])) ≠ List.replicate 256 0 := by
  obtain ⟨bw, hok⟩ := compress97_ok
  refine claim_C9.2 [97] (okBytes (compress_file [97])) ?_
  rw [hok]
  rfl

/-- C2: tree construction is reproducible.  The builder in `huffman2.c` is
the same function of the frequency table as the one in `huffman.c`, and for
every blob `compress_file` produces, the 256-entry table the decoder reads
back from the header equals the encoder's table exactly — so the decoder's
rebuild of the tree (a pure function of that table) is structurally
identical to the encoder's tree. -/
theorem claim_C2 :
    (∀ fr : List Nat, build_huffman_tree2 fr = build_huffman_tree fr) ∧
    (∀ (b blob : List Nat), compress_file b = .ok blob →
      read_header_freqs blob = count_frequencies b ∧
      build_huffman_tree (read_header_freqs blob) =
        build_huffman_tree (count_frequencies b)) := by
  refine ⟨fun fr => rfl, ?_⟩
  intro b blob hok
  obtain ⟨root, bw, hroot, hbw, hblob⟩ := compress_file_ok_inv b blob hok
  have hfr : read_header_freqs blob = count_frequencies b := by
    rw [hblob]
    exact read_header_freqs_write _ _ _ (length_count_frequencies b)
      (fun i => getD_count_frequencies_lt b i)
  exact ⟨hfr, by rw [hfr]⟩

theorem claim_C2_witness :
    read_header_freqs (okBytes (compress_file [97])) = count_frequencies [97] := by
  obtain ⟨bw, hok⟩ := compress97_ok
  refine (claim_C2.2 [97] (okBytes (compress_file [97])) ?_).1
  rw [hok]
  rfl

/-- C5: the degenerate single-symbol case.  When exactly one byte value `v`
of the 256-entry table has nonzero frequency, the built tree is the single
leaf for `v`; code generation assigns `v` the one-bit code "0"
(`[false]`) and no other byte value any code; and decompressing any blob
carrying such a header emits `v` exactly `totalSymbolCount` times without
reading the bitstream — the trailing bytes `rest` are arbitrary and do not
influence the output. -/
theorem claim_C5 (fr : List Nat) (v : Nat) (total : Nat) (hv : v < 256)
    (hlen : fr.length = 256) (hpv : 0 < fr.getD v 0)
    (hrest : ∀ i, i < 256 → i ≠ v → fr.getD i 0 = 0)
    (hflt : ∀ i, i < 256 → fr.getD i 0 < U64) (htot : total < U64) :
    build_huffman_tree fr = some (HTree.leaf v (fr.getD v 0)) ∧
    (generate_codes (HTree.leaf v (fr.getD v 0))).getD v none = some [false] ∧
    (∀ w, w < 256 → w ≠ v →
      (generate_codes (HTree.leaf v (fr.getD v 0))).getD w none = none) ∧
    (∀ rest : List Nat,
      decompress_file (write_header total fr ++ rest) = .ok (List.replicate total v)) := by
  have hflt2 : ∀ i, fr.getD i 0 < U64 := by
    intro i
    rcases Nat.lt_or_ge i 256 with hi | hi
    · exact hflt i hi
    · rw [getD_of_length_le fr i (by omega)]
      rw [U64]
      omega
  refine ⟨build_single fr v hv hpv hrest, ?_, ?_, ?_⟩
  · show ((List.replicate 256 (none : Option (List Bool))).set v (some [false])).getD v
      none = some [false]
    exact getD_set_self _ _ _ _ (by rw [List.length_replicate]; omega)
  · intro w hw hne
    show ((List.replicate 256 (none : Option (List Bool))).set v (some [false])).getD w
      none = none
    rw [getD_set_ne _ _ _ _ _ (fun he => hne he.symm), getD_replicate]
    split <;> rfl
  · intro rest
    have hblen : 2056 ≤ (write_header total fr ++ rest).length := by
      rw [List.length_append, length_write_header total fr hlen]
      omega
    have htotp : read_header_total (write_header total fr ++ rest) = total :=
      read_header_total_write total fr rest htot
    have hfrp : read_header_freqs (write_header total fr ++ rest) = fr :=
      read_header_freqs_write total fr rest hlen hflt2
    unfold decompress_file
    rw [if_neg (by omega), if_neg (by omega),
      if_neg (by rw [hfrp, htotp, build_single fr v hv hpv hrest]; simp),
      if_pos (by rw [hfrp]; exact uniqueCountOf_single fr v hv hpv hrest),
      hfrp, htotp, onlyCharOf_single fr v hv hpv hrest]

theorem claim_C5_witness :
    decompress_file (write_header 4 ((List.replicate 256 0).set 65 4) ++ [255]) =
      .ok (List.replicate 4 65) :=
  (claim_C5 ((List.replicate 256 0).set 65 4) 65 4 (by decide) (by decide) (by decide)
    (by decide) (by decide) (by rw [U64]; omega)).2.2.2 [255]

/-- Tables whose first 256 entries are u64-bounded are u64-bounded
everywhere (entries past the end read as 0). -/
theorem getD_lt_U64_of_bounded (fr : List Nat) (hlen : fr.length = 256)
    (h : ∀ i, i < 256 → fr.getD i 0 < U64) : ∀ i, fr.getD i 0 < U64 := by
  intro i
  rcases Nat.lt_or_ge i 256 with hi | hi
  · exact h i hi
  · rw [getD_of_length_le fr i (by omega)]
    rw [U64]
    omega

/-- C7: for a frequency table with at least two nonzero counters, the
codebook generated from the built tree assigns a code exactly to the byte
values with nonzero frequency, every assigned code is nonempty, no assigned
code is an initial segment of another byte's code, and the assigned codes
satisfy Kraft's equality `Σ 2^(-length) = 1`. -/
theorem claim_C7 (fr : List Nat) (root : HTree) (h2 : 2 ≤ uniqueCountOf fr)
    (hb : build_huffman_tree fr = some root) :
    (∀ v, v < 256 → (((generate_codes root).getD v none) ≠ none ↔ 0 < fr.getD v 0)) ∧
    (∀ v c, (generate_codes root).getD v none = some c → c ≠ []) ∧
    (∀ v w cv cw, v ≠ w → (generate_codes root).getD v none = some cv →
      (generate_codes root).getD w none = some cw → ¬ IsPref cv cw) ∧
    (((List.range 256).map fun v => codeTerm ((generate_codes root).getD v none)).sum
      = 1) := by
  obtain ⟨f, l, r, rfl⟩ := build_root_internal fr root hb h2
  have hnodup := build_leafChars_nodup fr _ hb
  have hmem := mem_build_leafChars fr _ hb
  have hlt : ∀ x ∈ (HTree.node f l r).leafChars, x < 256 := fun x hx => ((hmem x).mp hx).1
  have hgc : generate_codes (HTree.node f l r) =
      generate_codes_recursive (HTree.node f l r) [] (List.replicate 256 none) := rfl
  refine ⟨?_, ?_, ?_, ?_⟩
  · intro v hv
    constructor
    · intro hne
      match hc : (generate_codes (HTree.node f l r)).getD v none with
      | none => exact absurd hc hne
      | some c =>
        rw [hgc] at hc
        have hmem2 := gcr_lookup_inv _ hnodup hlt v c hc
        have : v ∈ (HTree.node f l r).leafChars := by
          rw [← map_fst_paths (HTree.node f l r) []]
          exact List.mem_map.mpr ⟨(v, c), hmem2, rfl⟩
        exact ((hmem v).mp this).2
    · intro hpos
      obtain ⟨p, hp⟩ := mem_paths_of_mem_leafChars (HTree.node f l r) [] v
        ((hmem v).mpr ⟨hv, hpos⟩)
      rw [hgc, gcr_lookup_mem _ hnodup v p hv hp]
      simp
  · intro v c hc
    rw [hgc] at hc
    have hmem2 := gcr_lookup_inv _ hnodup hlt v c hc
    have hl := paths_node_length f l r [] v c hmem2
    intro hnil
    rw [hnil] at hl
    simp at hl
  · intro v w cv cw hvw hcv hcw
    rw [hgc] at hcv hcw
    have hmv := gcr_lookup_inv _ hnodup hlt v cv hcv
    have hmw := gcr_lookup_inv _ hnodup hlt w cw hcw
    have hpw := paths_pairwise (HTree.node f l r) []
    have hsymm : Symmetric (fun (a b : Nat × List Bool) =>
        ¬ IsPref a.2 b.2 ∧ ¬ IsPref b.2 a.2) := fun a b hab => ⟨hab.2, hab.1⟩
    have hr := hpw.forall hsymm hmv hmw (by
      intro he
      apply hvw
      have : (v, cv).1 = (w, cw).1 := by rw [he]
      exact this)
    exact hr.1
  · rw [hgc, generate_codes_recursive_eq, sum_codeTerm_foldl _ _ (by
        rw [List.length_replicate]) (by rw [map_fst_paths]; exact hnodup)
      (fun q hq => hlt q.1 (by
        rw [← map_fst_paths (HTree.node f l r) []]
        exact List.mem_map.mpr ⟨q, hq, rfl⟩))
      (fun q hq => by rw [getD_replicate]; split <;> rfl)]
    have hzero : (((List.range 256).map fun v =>
        codeTerm ((List.replicate 256 (none : Option (List Bool))).getD v none)).sum) = 0 := by
      have : ∀ v ∈ List.range 256,
          codeTerm ((List.replicate 256 (none : Option (List Bool))).getD v none) = 0 := by
        intro v hv
        rw [getD_replicate]
        split <;> rfl
      rw [List.map_congr_left this]
      simp
    rw [hzero, kraft_paths (HTree.node f l r) []]
    simp

theorem claim_C7_witness :
    ((generate_codes (HTree.node 2 (HTree.leaf 97 1) (HTree.leaf 98 1))).getD 97 none ≠ none
      ↔ 0 < (((List.replicate 256 0).set 97 1).set 98 1).getD 97 0) :=
  (claim_C7 (((List.replicate 256 0).set 97 1).set 98 1)
    (HTree.node 2 (HTree.leaf 97 1) (HTree.leaf 98 1)) (by decide) (by decide)).1 97
    (by omega)

/-- C8: the bit-level layer does not round-trip.  The writer packs bits
MSB-first — writing the sequence 0,1 produces the single byte
`0b01000000 = 64` with one zero-padded tail — but the reader extracts
`(buffer >> (7 - pos)) & 1` with `pos = bit_count - 1`, which walks the
byte from the least significant bit: reading two bits back from that byte
yields 0,0 instead of the written 0,1. -/
theorem claim_C8 :
    bitwriter_flush (bitwriter_write_bits bitwriter_create [false, true]) = [64] ∧
    read_bits ⟨[64], 0, 0⟩ 2 = some [false, false] ∧
    read_bits ⟨[64], 0, 0⟩ 2 ≠ some [false, true] := by
  refine ⟨by decide, by decide, by decide⟩

/-! ### Two-entry frequency tables: explicit tree construction -/

/-- Inserting two leaves into the empty heap: the smaller frequency ends up
at the root (ties keep insertion order, as `heapify_up` sifts only on
strict inequality). -/
theorem insert_two (f0 f1 c0 c1 : Nat) :
    heap_insert (heap_insert [] (HTree.leaf c0 f0)) (HTree.leaf c1 f1) =
      if f0 ≤ f1 then [HTree.leaf c0 f0, HTree.leaf c1 f1]
      else [HTree.leaf c1 f1, HTree.leaf c0 f0] := by
  show heapifyUp 1 [HTree.leaf c0 f0, HTree.leaf c1 f1] 1 = _
  unfold heapifyUp
  rw [if_pos (by omega : (0 : Nat) < 1)]
  split
  next h =>
    rw [if_pos (show f0 ≤ f1 from h)]
  next h =>
    rw [if_neg (show ¬ f0 ≤ f1 from h)]
    rfl

/-- A 256-entry scan that holds exactly at indices 0 and 1 filters down to
`[0, 1]`. -/
theorem filter_range_pair (p : Nat → Prop) [DecidablePred p] (hp0 : p 0) (hp1 : p 1)
    (hrest : ∀ i, 2 ≤ i → i < 256 → ¬ p i) :
    (List.range 256).filter (fun i => decide (p i)) = [0, 1] := by
  have hsub : ∀ i ∈ List.range 256, (decide (p i)) = decide (i < 2) := by
    intro i hi
    rw [List.mem_range] at hi
    match i with
    | 0 => rw [decide_eq_true hp0, decide_eq_true (by omega : (0 : Nat) < 2)]
    | 1 => rw [decide_eq_true hp1, decide_eq_true (by omega : (1 : Nat) < 2)]
    | n + 2 =>
      rw [decide_eq_false (hrest (n + 2) (by omega) hi),
        decide_eq_false (by omega : ¬ (n + 2 < 2))]
  rw [List.filter_congr hsub]
  decide

/-- The leaf-insertion pass over a table that is nonzero exactly at byte
values 0 and 1. -/
theorem insertLeaves_pair (fr : List Nat) (h0 : 0 < fr.getD 0 0) (h1 : 0 < fr.getD 1 0)
    (hrest : ∀ i, 2 ≤ i → i < 256 → fr.getD i 0 = 0) :
    insertLeaves fr =
      if fr.getD 0 0 ≤ fr.getD 1 0 then
        [HTree.leaf 0 (fr.getD 0 0), HTree.leaf 1 (fr.getD 1 0)]
      else [HTree.leaf 1 (fr.getD 1 0), HTree.leaf 0 (fr.getD 0 0)] := by
  rw [insertLeaves_eq, filter_range_pair (fun i => 0 < fr.getD i 0) h0 h1
    (fun i h2 hi => by show ¬ 0 < fr.getD i 0; rw [hrest i h2 hi]; omega)]
  show heap_insert (heap_insert [] (HTree.leaf 0 (fr.getD 0 0)))
    (HTree.leaf 1 (fr.getD 1 0)) = _
  exact insert_two (fr.getD 0 0) (fr.getD 1 0) 0 1

/-- `build_huffman_tree` on a table that is nonzero exactly at byte values
0 and 1: one merge step, with the node frequency reduced modulo 2^64 — this
is where the `uint64_t` sum can wrap. -/
theorem build_pair (fr : List Nat) (h0 : 0 < fr.getD 0 0) (h1 : 0 < fr.getD 1 0)
    (hrest : ∀ i, 2 ≤ i → i < 256 → fr.getD i 0 = 0) :
    build_huffman_tree fr =
      if fr.getD 0 0 ≤ fr.getD 1 0 then
        some (HTree.node ((fr.getD 0 0 + fr.getD 1 0) % U64)
          (HTree.leaf 0 (fr.getD 0 0)) (HTree.leaf 1 (fr.getD 1 0)))
      else
        some (HTree.node ((fr.getD 1 0 + fr.getD 0 0) % U64)
          (HTree.leaf 1 (fr.getD 1 0)) (HTree.leaf 0 (fr.getD 0 0))) := by
  have hfil : ((List.range 256).filter fun i => 0 < fr.getD i 0) = [0, 1] :=
    filter_range_pair (fun i => 0 < fr.getD i 0) h0 h1
      (fun i h2 hi => by show ¬ 0 < fr.getD i 0; rw [hrest i h2 hi]; omega)
  have hIL := insertLeaves_pair fr h0 h1 hrest
  by_cases hc : fr.getD 0 0 ≤ fr.getD 1 0
  · rw [if_pos hc] at hIL
    rw [build_huffman_tree_eq, hfil, if_neg (by decide), hIL, if_pos hc,
      if_neg (by simp)]
    rfl
  · rw [if_neg hc] at hIL
    rw [build_huffman_tree_eq, hfil, if_neg (by decide), hIL, if_neg hc,
      if_neg (by simp)]
    rfl

/-- In an input made of the byte values 0 and 1 only, every frequency
counter at index 2..255 stays zero. -/
theorem count_frequencies_01_rest (b : List Nat) (hmem : ∀ x ∈ b, x = 0 ∨ x = 1) :
    ∀ i, 2 ≤ i → i < 256 → (count_frequencies b).getD i 0 = 0 := by
  intro i h2 hi
  have hb256 : ∀ x ∈ b, x < 256 := by
    intro x hx
    rcases hmem x hx with rfl | rfl
    · omega
    · omega
  rw [getD_count_frequencies b hb256 i hi,
    List.count_eq_zero.mpr (fun hmem2 => by rcases hmem i hmem2 with rfl | rfl <;> omega)]
  rfl

/-- C6: header integrity.  As long as the `uint64_t` counters do not
overflow — i.e. the input is shorter than 2^64 bytes — every blob
`compress_file` produces carries a header whose 256 frequency counters sum
to its `totalSymbolCount` field, and whose counter for byte value `v` is
exactly the number of occurrences of `v` in the input.  (At 2^64 bytes and
beyond the counters wrap and the equation fails; see the counterexample.) -/
theorem claim_C6 (b blob : List Nat) (hb256 : ∀ x ∈ b, x < 256)
    (hlen : b.length < U64) (hok : compress_file b = .ok blob) :
    (read_header_freqs blob).sum = read_header_total blob ∧
    (∀ v, v < 256 → (read_header_freqs blob).getD v 0 = b.count v) := by
  obtain ⟨root, bw, hroot, hbw, hblob⟩ := compress_file_ok_inv b blob hok
  have hfr : read_header_freqs blob = count_frequencies b := by
    rw [hblob]
    exact read_header_freqs_write _ _ _ (length_count_frequencies b)
      (fun i => getD_count_frequencies_lt b i)
  have htot : read_header_total blob = b.length := by
    rw [hblob, read_header_total_write _ _ _ (total_chars_lt b), total_chars_eq,
      Nat.mod_eq_of_lt hlen]
  have hcnt : ∀ v, v < 256 → (count_frequencies b).getD v 0 = b.count v := by
    intro v hv
    rw [getD_count_frequencies b hb256 v hv,
      Nat.mod_eq_of_lt (Nat.lt_of_le_of_lt (List.count_le_length v b) hlen)]
  refine ⟨?_, fun v hv => by rw [hfr]; exact hcnt v hv⟩
  rw [hfr, htot]
  rw [← map_getD_range (count_frequencies b) 256 (length_count_frequencies b)]
  rw [List.map_congr_left (fun v hv => hcnt v (List.mem_range.mp hv)),
    sum_map_count b 256 hb256]

theorem claim_C6_witness :
    (read_header_freqs (okBytes (compress_file [97]))).sum =
      read_header_total (okBytes (compress_file [97])) := by
  obtain ⟨bw, hok⟩ := compress97_ok
  exact (claim_C6 [97] (okBytes (compress_file [97])) (by decide) (by decide)
    (by rw [hok]; rfl)).1

/-- An input of exactly 2^64 bytes: 2^63 zero bytes followed by 2^63 one
bytes.  Both `uint64_t` byte counters reach 2^63 (no individual overflow),
but `totalSymbolCount` wraps to 0, so the header's counters sum to 2^64
while its total field is 0. -/
def c6big : List Nat :=
  List.replicate 9223372036854775808 0 ++ List.replicate 9223372036854775808 1

theorem claim_C6_counterexample :
    (compress_file c6big).isOk = true ∧
    (read_header_freqs (okBytes (compress_file c6big))).sum ≠
      read_header_total (okBytes (compress_file c6big)) := by
  have hdef : c6big = List.replicate 9223372036854775808 0 ++
      List.replicate 9223372036854775808 1 := rfl
  have hmem : ∀ x ∈ c6big, x = 0 ∨ x = 1 := by
    intro x hx
    rw [hdef] at hx
    rcases List.mem_append.mp hx with h | h
    · exact Or.inl (List.eq_of_mem_replicate h)
    · exact Or.inr (List.eq_of_mem_replicate h)
  have hb256 : ∀ x ∈ c6big, x < 256 := by
    intro x hx
    rcases hmem x hx with rfl | rfl
    · omega
    · omega
  have hcount0 : c6big.count 0 = 9223372036854775808 := by
    rw [hdef, List.count_append, List.count_replicate_self,
      List.count_eq_zero.mpr (fun h => absurd (List.eq_of_mem_replicate h) (by omega))]
  have hcount1 : c6big.count 1 = 9223372036854775808 := by
    rw [hdef, List.count_append, List.count_replicate_self,
      List.count_eq_zero.mpr (fun h => absurd (List.eq_of_mem_replicate h) (by omega))]
  have hg0 : (count_frequencies c6big).getD 0 0 = 9223372036854775808 := by
    rw [getD_count_frequencies c6big hb256 0 (by omega), hcount0]
    decide
  have hg1 : (count_frequencies c6big).getD 1 0 = 9223372036854775808 := by
    rw [getD_count_frequencies c6big hb256 1 (by omega), hcount1]
    decide
  have hrest := count_frequencies_01_rest c6big hmem
  have hbuild : build_huffman_tree (count_frequencies c6big) =
      some (HTree.node 0 (HTree.leaf 0 9223372036854775808)
        (HTree.leaf 1 9223372036854775808)) := by
    rw [build_pair _ (by rw [hg0]; omega) (by rw [hg1]; omega) hrest, hg0, hg1,
      if_pos (le_refl 9223372036854775808)]
    decide
  have hgc : generate_codes (HTree.node 0 (HTree.leaf 0 9223372036854775808)
      (HTree.leaf 1 9223372036854775808)) =
      ((List.replicate 256 (none : Option (List Bool))).set 0 (some [false])).set 1
        (some [true]) := rfl
  have hcodes : ∀ c ∈ c6big,
      (generate_codes (HTree.node 0 (HTree.leaf 0 9223372036854775808)
        (HTree.leaf 1 9223372036854775808))).getD c none ≠ none := by
    intro c hcm
    rw [hgc]
    rcases hmem c hcm with rfl | rfl
    · rw [getD_set_ne _ _ _ _ _ (by omega), getD_set_self _ _ _ _
        (by rw [List.length_replicate]; omega)]
      simp
    · rw [getD_set_self _ _ _ _ (by rw [List.length_set, List.length_replicate]; omega)]
      simp
  have hlen64 : c6big.length = U64 := by
    rw [hdef, List.length_append, List.length_replicate, List.length_replicate]
    decide
  have htc0 : total_chars c6big = 0 := by
    rw [total_chars_eq, hlen64, Nat.mod_self]
  have hsum : (count_frequencies c6big).sum = U64 := by
    have hmap : ((List.range 256).map fun v => (count_frequencies c6big).getD v 0) =
        (List.range 256).map fun v => if v < 2 then 9223372036854775808 else 0 := by
      apply List.map_congr_left
      intro v hv
      rw [List.mem_range] at hv
      rcases Nat.lt_or_ge v 2 with h2 | h2
      · rw [if_pos h2]
        interval_cases v
        · exact hg0
        · exact hg1
      · rw [if_neg (by omega)]
        exact hrest v h2 hv
    rw [← map_getD_range (count_frequencies c6big) 256 (length_count_frequencies c6big),
      hmap]
    decide
  obtain ⟨bw, hok⟩ := compress_file_ok_of c6big _ hbuild hcodes
  refine ⟨by rw [hok]; rfl, ?_⟩
  rw [hok]
  simp only [okBytes]
  rw [read_header_freqs_write _ _ _ (length_count_frequencies c6big)
      (fun i => getD_count_frequencies_lt c6big i),
    read_header_total_write _ _ _ (total_chars_lt c6big), hsum, htc0]
  decide

/-- C10 (amended): the two files' codecs agree on the whole domain the
format can represent — inputs shorter than 2^64 bytes — and their
decompressors agree on every blob (they are line-for-line identical up to
message strings).  For inputs of 2^64 bytes or more, where `total_chars`
wraps to 0, the two compressors diverge: `huffman.c` tests the tree for
`NULL` while `huffman2.c` tests `total == 0` first, and a wrapped total
with a non-`NULL` tree trips exactly one of the two checks (see the
counterexample). -/
theorem claim_C10 :
    (∀ b : List Nat, (∀ x ∈ b, x < 256) → b.length < U64 →
      compress_file b = compress_file2 b) ∧
    (∀ blob : List Nat, decompress_file blob = decompress_file2 blob) := by
  constructor
  · intro b hb256 hlen
    cases b with
    | nil => rw [compress_file_nil, compress_file2_nil]
    | cons c rest =>
      have hc : c < 256 := hb256 c (by simp)
      have hcount : 0 < (count_frequencies (c :: rest)).getD c 0 := by
        rw [getD_count_frequencies _ hb256 c hc, Nat.mod_eq_of_lt
          (Nat.lt_of_le_of_lt (List.count_le_length c (c :: rest)) hlen),
          List.count_cons_self]
        omega
      have htc : ¬ total_chars (c :: rest) = 0 := by
        rw [total_chars_eq, Nat.mod_eq_of_lt hlen]
        simp
      have hnn : ¬ build_huffman_tree (count_frequencies (c :: rest)) = none := by
        intro hn
        rw [build_eq_none_iff] at hn
        unfold uniqueCountOf at hn
        rw [List.length_eq_zero] at hn
        have h3 := List.filter_eq_nil_iff.mp hn c (List.mem_range.mpr hc)
        simp only [decide_eq_true_eq] at h3
        exact h3 hcount
      cases hbd : build_huffman_tree (count_frequencies (c :: rest)) with
      | none => exact absurd hbd hnn
      | some root =>
        unfold compress_file compress_file2
        rw [if_neg htc, hbd]
  · intro blob
    rfl

theorem claim_C10_witness : compress_file [97] = compress_file2 [97] :=
  claim_C10.1 [97] (by decide) (by decide)

/-- An input of exactly 2^64 bytes: 2^64 − 1 zero bytes and one `1` byte.
`total_chars` wraps to 0 while the frequency table is nonzero, so
`huffman2.c` rejects the input as empty while `huffman.c` compresses it. -/
def c10big : List Nat := List.replicate 18446744073709551615 0 ++ [1]

theorem claim_C10_counterexample :
    (compress_file c10big).isOk = true ∧
    compress_file2 c10big = .error .emptyInput := by
  have hdef : c10big = List.replicate 18446744073709551615 0 ++ [1] := rfl
  have hmem : ∀ x ∈ c10big, x = 0 ∨ x = 1 := by
    intro x hx
    rw [hdef] at hx
    rcases List.mem_append.mp hx with h | h
    · exact Or.inl (List.eq_of_mem_replicate h)
    · exact Or.inr (by simpa using h)
  have hb256 : ∀ x ∈ c10big, x < 256 := by
    intro x hx
    rcases hmem x hx with rfl | rfl
    · omega
    · omega
  have hcount0 : c10big.count 0 = 18446744073709551615 := by
    rw [hdef, List.count_append, List.count_replicate_self]
    decide
  have hcount1 : c10big.count 1 = 1 := by
    rw [hdef, List.count_append,
      List.count_eq_zero.mpr (fun h => absurd (List.eq_of_mem_replicate h) (by omega))]
    decide
  have hg0 : (count_frequencies c10big).getD 0 0 = 18446744073709551615 := by
    rw [getD_count_frequencies c10big hb256 0 (by omega), hcount0]
    decide
  have hg1 : (count_frequencies c10big).getD 1 0 = 1 := by
    rw [getD_count_frequencies c10big hb256 1 (by omega), hcount1]
    decide
  have hrest := count_frequencies_01_rest c10big hmem
  have hbuild : build_huffman_tree (count_frequencies c10big) =
      some (HTree.node 0 (HTree.leaf 1 1) (HTree.leaf 0 18446744073709551615)) := by
    rw [build_pair _ (by rw [hg0]; omega) (by rw [hg1]; omega) hrest, hg0, hg1,
      if_neg (by decide)]
    decide
  have hgc : generate_codes (HTree.node 0 (HTree.leaf 1 1)
      (HTree.leaf 0 18446744073709551615)) =
      ((List.replicate 256 (none : Option (List Bool))).set 1 (some [false])).set 0
        (some [true]) := rfl
  have hcodes : ∀ c ∈ c10big,
      (generate_codes (HTree.node 0 (HTree.leaf 1 1)
        (HTree.leaf 0 18446744073709551615))).getD c none ≠ none := by
    intro c hcm
    rw [hgc]
    rcases hmem c hcm with rfl | rfl
    · rw [getD_set_self _ _ _ _ (by rw [List.length_set, List.length_replicate]; omega)]
      simp
    · rw [getD_set_ne _ _ _ _ _ (by omega), getD_set_self _ _ _ _
        (by rw [List.length_replicate]; omega)]
      simp
  have hlen64 : c10big.length = U64 := by
    rw [hdef, List.length_append, List.length_replicate]
    decide
  have htc0 : total_chars c10big = 0 := by
    rw [total_chars_eq, hlen64, Nat.mod_self]
  obtain ⟨bw, hok⟩ := compress_file_ok_of c10big _ hbuild hcodes
  refine ⟨by rw [hok]; rfl, ?_⟩
  unfold compress_file2
  rw [if_pos htc0]

/-- C1: the spec's round-trip identity `decompress(compress(b)) = b` FAILS
on the code: the writer packs bits into each byte MSB-first while the
reader extracts them LSB-first, so the decoder walks the tree with the
bits of every byte reversed.  On `b = [97, 98]` ("ab") compression
succeeds — the codes are `97 ↦ 0`, `98 ↦ 1`, giving the stream byte
`0b01000000` — but decompression reads the two bits as 0,0 and returns
`[97, 97]` ("aa"): a silently wrong round trip, contradicting both the
spec and the symmetric intent of the code's own reader/writer pair. -/
theorem claim_C1 :
    (compress_file [97, 98]).isOk = true ∧
    decompress_file (okBytes (compress_file [97, 98])) = .ok [97, 97] ∧
    (Except.ok [97, 97] : Except CodecError (List Nat)) ≠ .ok [97, 98] := by
  have hbd : build_huffman_tree (count_frequencies [97, 98]) =
      some (HTree.node 2 (HTree.leaf 97 1) (HTree.leaf 98 1)) := by decide
  have henc : encode_pass (generate_codes (HTree.node 2 (HTree.leaf 97 1)
      (HTree.leaf 98 1))) [97, 98] bitwriter_create = some ⟨[], 64, 2⟩ := by decide
  have hok : compress_file [97, 98] = .ok (write_header (total_chars [97, 98])
      (count_frequencies [97, 98]) ++ bitwriter_flush ⟨[], 64, 2⟩) := by
    unfold compress_file
    rw [hbd]
    dsimp only
    rw [henc]
  have hfr256 : (count_frequencies [97, 98]).length = 256 := length_count_frequencies _
  have hfrp : read_header_freqs (write_header (total_chars [97, 98])
      (count_frequencies [97, 98]) ++ bitwriter_flush ⟨[], 64, 2⟩) =
      count_frequencies [97, 98] :=
    read_header_freqs_write _ _ _ hfr256 (fun i => getD_count_frequencies_lt _ i)
  have htotp : read_header_total (write_header (total_chars [97, 98])
      (count_frequencies [97, 98]) ++ bitwriter_flush ⟨[], 64, 2⟩) = 2 := by
    rw [read_header_total_write _ _ _ (total_chars_lt _)]
    decide
  have hdrop : (write_header (total_chars [97, 98]) (count_frequencies [97, 98]) ++
      bitwriter_flush ⟨[], 64, 2⟩).drop 2056 = [64] := by
    have h2 := List.drop_left (write_header (total_chars [97, 98])
      (count_frequencies [97, 98])) (bitwriter_flush ⟨[], 64, 2⟩)
    rw [length_write_header _ _ hfr256] at h2
    exact h2.trans (by decide)
  have h2056 : 2056 ≤ (write_header (total_chars [97, 98])
      (count_frequencies [97, 98]) ++ bitwriter_flush ⟨[], 64, 2⟩).length := by
    rw [List.length_append, length_write_header _ _ hfr256]
    omega
  refine ⟨by rw [hok]; rfl, ?_, by simp⟩
  rw [hok]
  simp only [okBytes]
  rw [decompress_file_decode_branch _ h2056 (by rw [hfrp, hbd]; simp)
    (by rw [hfrp]; decide)]
  rw [hfrp, htotp, hbd, hdrop]
  rfl

end Huffman
